import Mathlib

set_option linter.unreachableTactic false
set_option linter.unusedTactic false
set_option linter.unnecessarySeqFocus false

/-!
Verification of the XBDM-Tools protocol engine.

This file gives a shallow embedding, in Lean 4, of the parts of the
GoobyCorp/XBDM-Tools repository that the frozen claims C1..C10 are about:

* `xbdm_common.py`: the `XBDMCommand` message object (its shlex-based line
  lexer, `parse`, `get_output`, `value_to_type`, `value_to_output`,
  `value_apply_type`, `get_param`) and the `CRC32` helper;
* `emulator.py`: the emulator's own `XBDMCommand.parse` (regex-based first
  token classification), `system_time` / `uint64_to_uint32` and the `systime`
  handler, the verb dispatch table of `XBDMServerProtocol.data_received`, and
  the single-file / multi-file receive state machine of `data_received`.

Python strings are modelled as `List Char`; byte strings as `List Nat`
(each element a byte value).  Python `int` is `Int` (or `Nat` where the
source value is provably non-negative).  Fallible Python code (statements
that can raise) is modelled with `Option`: `none` means the Python code
raises an exception.  Host interaction (sockets, files on disk, wall-clock
time) is made explicit: file contents written to disk are logged in the
session state, transport writes are returned as a list of output events,
and the current time enters as a parameter.
-/

/-! ## Small Python-modelling utilities -/

/-- The characters of a Python `str` (`str` values are modelled as `List Char`). -/
abbrev Str := List Char

/-- `shlex` whitespace: the default `shlex.whitespace` attribute is `" \t\r\n"`. -/
def isShlexWS (c : Char) : Bool :=
  c = ' ' || c = '\t' || c = '\r' || c = '\n'

/-- ASCII decimal digit test. -/
def isDigitChar (c : Char) : Bool :=
  '0' ≤ c && c ≤ '9'

/-- Value of a decimal digit character. -/
def digitVal (c : Char) : Nat := c.toNat - '0'.toNat

/-- Value of a nonempty all-digit character list, most significant first. -/
def digitsVal (cs : Str) : Nat :=
  cs.foldl (fun acc c => acc * 10 + digitVal c) 0

/-- `some` value of a digit run iff the run is nonempty and all digits. -/
def digitsVal? (cs : Str) : Option Nat :=
  if cs ≠ [] ∧ cs.all isDigitChar then some (digitsVal cs) else none

/-- ASCII character test.  String parameter values admitted by `wfMsg` are
restricted to ASCII: Python's `int` additionally accepts non-ASCII decimal
digits and whitespace, which a `List Char`-level model does not cover. -/
def isAsciiChar (c : Char) : Bool := c.toNat < 128

/-- The ASCII characters Python's `int` strips from a `str` argument:
`Py_UNICODE_ISSPACE` restricted to ASCII is `\t\n\x0b\x0c\r`, the
separator controls `\x1c`-`\x1f`, and the space. -/
def pySpaceChars : Str :=
  ['\t', '\n', '\x0b', '\x0c', '\x0d', '\x1c', '\x1d', '\x1e', '\x1f', ' ']

/-- Whitespace as stripped by Python `int` (ASCII part). -/
def isPySpace (c : Char) : Bool := decide (c ∈ pySpaceChars)

/-- Strip leading and trailing `int`-whitespace. -/
def stripPyWS (s : Str) : Str :=
  ((s.dropWhile isPySpace).reverse.dropWhile isPySpace).reverse

/-- Continuation of a Python `int` digit run after at least one digit: the
grammar `digitpart: digit (["_"] digit)*`, so an underscore must be
followed (and preceded) by a digit. -/
def uRunCont : Str → Bool
  | [] => true
  | c :: rest =>
    if c = '_' then
      match rest with
      | [] => false
      | d :: rest2 => isDigitChar d && uRunCont rest2
    else isDigitChar c && uRunCont rest

/-- A complete Python `int` digit run: nonempty, starts with a digit,
underscores only directly between two digits. -/
def uRun : Str → Bool
  | [] => false
  | c :: rest => isDigitChar c && uRunCont rest

/-- Value of a digit run, ignoring underscore separators. -/
def uVal (s : Str) : Nat := digitsVal (s.filter (fun c => c ≠ '_'))

/-- Python `int(s)` after whitespace stripping: an optional single sign
followed by a digit run. -/
def pyIntCore? (s : Str) : Option Int :=
  match s with
  | [] => none
  | c :: rest =>
    if c = '-' then if uRun rest then some (-(uVal rest : Int)) else none
    else if c = '+' then if uRun rest then some ((uVal rest : Int)) else none
    else if uRun (c :: rest) then some ((uVal (c :: rest) : Int)) else none

/-- Model of Python `int(s)` on ASCII strings: surrounding whitespace is
stripped, then an optional sign is followed by one or more ASCII digits
with single underscores allowed between digits. -/
def pyInt? (s : Str) : Option Int := pyIntCore? (stripPyWS s)

example : pyInt? "12".data = some 12 := by decide
example : pyInt? "1_2".data = some 12 := by decide
example : pyInt? " 12 ".data = some 12 := by decide
example : pyInt? "\t-1_2_3\x1c".data = some (-123) := by decide
example : pyInt? "+12".data = some 12 := by decide
example : pyInt? "_12".data = none := by decide
example : pyInt? "12_".data = none := by decide
example : pyInt? "1__2".data = none := by decide
example : pyInt? "+ 12".data = none := by decide
example : pyInt? "1 2".data = none := by decide
example : pyInt? "0x1A".data = none := by decide
example : pyInt? "".data = none := by decide

/-- Fuel-driven decimal digit production (structural, so that the kernel
can evaluate it). -/
def natDigitsAux : Nat → Nat → Str
  | 0, _ => []
  | fuel + 1, n =>
    if n < 10 then [Nat.digitChar n]
    else natDigitsAux fuel (n / 10) ++ [Nat.digitChar (n % 10)]

/-- Decimal digits of `n`, most significant first (model of Python `str` on
a non-negative `int`). -/
def natDigits (n : Nat) : Str := natDigitsAux (n + 1) n

/-- Model of Python `str(i)` for `i : Int`. -/
def pyIntToStr (i : Int) : Str :=
  if i < 0 then '-' :: natDigits i.natAbs else natDigits i.toNat

/-- Uppercase hexadecimal digit character for `k < 16` (as produced by
`bytes.hex()` followed by `.upper()`). -/
def hexDigitUpper (k : Nat) : Char :=
  if k < 10 then Nat.digitChar k else Char.ofNat ('A'.toNat + (k - 10))

/-- Lowercase hexadecimal digit character for `k < 16` (as produced by
`bytes.hex()`). -/
def hexDigitLower (k : Nat) : Char :=
  if k < 10 then Nat.digitChar k else Char.ofNat ('a'.toNat + (k - 10))

/-- Fixed-width big-endian hex digits of `v` (uppercase), width `w`. -/
def hexDigits (w : Nat) (v : Nat) : Str :=
  match w with
  | 0 => []
  | w + 1 => hexDigits w (v / 16) ++ [hexDigitUpper (v % 16)]

/-- Fixed-width big-endian hex digits of `v` (lowercase), width `w`. -/
def hexDigitsLower (w : Nat) (v : Nat) : Str :=
  match w with
  | 0 => []
  | w + 1 => hexDigitsLower w (v / 16) ++ [hexDigitLower (v % 16)]

/-- Hex digit test, both cases (as accepted by `bytes.fromhex`). -/
def isHexChar (c : Char) : Bool :=
  isDigitChar c || ('a' ≤ c && c ≤ 'f') || ('A' ≤ c && c ≤ 'F')

/-- Value of a hex digit character. -/
def hexCharVal (c : Char) : Nat :=
  if isDigitChar c then digitVal c
  else if 'a' ≤ c && c ≤ 'f' then c.toNat - 'a'.toNat + 10
  else c.toNat - 'A'.toNat + 10

/-- Numeric value of a hex character run, most significant first. -/
def hexVal (cs : Str) : Nat :=
  cs.foldl (fun acc c => acc * 16 + hexCharVal c) 0

/-- Model of `int.from_bytes(bytes.fromhex(s), "big")`: `bytes.fromhex`
skips ASCII spaces, then requires an even number of hex digits; the
big-endian integer of the digits is returned. -/
def pyFromhexInt? (s : Str) : Option Nat :=
  let t := s.filter (fun c => c ≠ ' ')
  if t.length % 2 = 0 ∧ t.all isHexChar then some (hexVal t) else none

/-- Model of `str.rjust(w, c)`. -/
def pyRjust (s : Str) (w : Nat) (c : Char) : Str :=
  if w ≤ s.length then s else List.replicate (w - s.length) c ++ s

/-- Model of `str.lstrip("0")`. -/
def lstripZeros (s : Str) : Str := s.dropWhile (fun c => c = '0')

/-- Model of `str.endswith("-")`. -/
def endsWithDash (s : Str) : Bool := s.getLast? = some '-'

/-- Model of `key.split("=", 1)` under the guarantee `'=' ∈ key` (the code
only splits tokens that contain `=`): the part before the first `=` and the
part after it. -/
def splitFirstEq (s : Str) : Str × Str :=
  (s.takeWhile (fun c => c ≠ '='), (s.dropWhile (fun c => c ≠ '=')).tail)

/-! ## The shlex-based line lexer

Both `xbdm_common.XBDMShlex` and `emulator.XBDMShlex` subclass `shlex` with
`posix=True`, `whitespace_split=True` and `escape=""` (no escape character).
The common variant additionally sets `quotes='"'`; the emulator variant
keeps the default quote set `'"` (single and double).  Neither resets
`commenters`, so `#` outside quotes starts a comment that consumes the rest
of the current line.  An unterminated quote raises `ValueError`, modelled as
`none`. -/

/-- Lexer state: the open quote character (if inside a quote), the token
being accumulated (`some ""` after a closed empty quote is a real token,
distinct from `none`), the completed tokens, and whether we are skipping a
`#` comment. -/
structure LexSt where
  inQ : Option Char
  cur : Option Str
  acc : List Str
  inComment : Bool
deriving Repr, DecidableEq

/-- One character of `shlex.read_token`, parameterised by the quote set. -/
def lexStep (quotes : List Char) (st : LexSt) (c : Char) : LexSt :=
  if st.inComment then
    if c = '\n' then { st with inComment := false } else st
  else match st.inQ with
  | some q => if c = q then { st with inQ := none, cur := some (st.cur.getD []) }
              else { st with cur := some (st.cur.getD [] ++ [c]) }
  | none =>
    if isShlexWS c then
      match st.cur with
      | some t => { st with cur := none, acc := st.acc ++ [t] }
      | none => st
    else if c = '#' then
      match st.cur with
      | some t => { st with cur := none, acc := st.acc ++ [t], inComment := true }
      | none => { st with inComment := true }
    else if c ∈ quotes then { st with inQ := some c, cur := some (st.cur.getD []) }
    else { st with cur := some (st.cur.getD [] ++ [c]) }

/-- Run the lexer over a character list. -/
def lexRun (quotes : List Char) (cs : Str) (st : LexSt) : LexSt :=
  cs.foldl (lexStep quotes) st

/-- The starting lexer state. -/
def lexStart : LexSt := ⟨none, none, [], false⟩

/-- `list(shlex_instance)` on the whole input: the token list, or `none` on
an unterminated quote. -/
def lexTokens (quotes : List Char) (cs : Str) : Option (List Str) :=
  let st := lexRun quotes cs lexStart
  if st.inQ.isSome then none
  else some (st.acc ++ st.cur.toList)

/-- Quote set of `xbdm_common.XBDMShlex` (`self.quotes = '"'`). -/
def commonQuotes : List Char := ['"']

/-- Quote set of `emulator.XBDMShlex` (default shlex quotes). -/
def emuQuotes : List Char := ['\'', '"']

example : lexTokens commonQuotes "getmem ADDR=0xDEAD k=\"a b\"".data =
    some ["getmem".data, "ADDR=0xDEAD".data, "k=a b".data] := by decide

example : lexTokens commonQuotes "x \"unterminated".data = none := by decide

example : lexTokens commonQuotes "a #b c".data = some ["a".data] := by decide

/-! ## `xbdm_common.XBDMCommand`: the message object

Source: `src/xbdm_common.py`, class `XBDMCommand`.  The fields `line` and
`formatted` are caches of the raw input line and are not part of the
message content; they are not modelled. -/

/-- `xbdm_common.XBDMType`. -/
inductive XBDMType where
  | NONE | INTEGER | DWORD | QWORD | BYTES | STRING | QUOTED_STRING
deriving Repr, DecidableEq

/-- A Python value stored in `XBDMCommand.args`: the code stores `int` or
`str` values (checked by `enforce_types`). -/
inductive PyVal where
  | int (i : Int)
  | str (s : Str)
deriving Repr, DecidableEq

/-- The message object: name `or` code, ordered typed parameters, flags. -/
structure CommonCmd where
  name : Option Str
  code : Int
  args : List (Str × PyVal × XBDMType)
  flags : List Str
deriving Repr, DecidableEq

/-- The freshly `reset` message. -/
def CommonCmd.empty : CommonCmd := ⟨none, 0, [], []⟩

/-- Python `dict` insertion: replace in place if the key exists, else
append (model of `self.args[key] = (value, t)`). -/
def assocSet (args : List (Str × PyVal × XBDMType)) (k : Str) (v : PyVal)
    (t : XBDMType) : List (Str × PyVal × XBDMType) :=
  if args.any (fun e => e.1 = k) then
    args.map (fun e => if e.1 = k then (k, v, t) else e)
  else args ++ [(k, v, t)]

/-- Python `dict.get` on the args map. -/
def assocGet (args : List (Str × PyVal × XBDMType)) (k : Str) :
    Option (PyVal × XBDMType) :=
  (args.find? (fun e => e.1 = k)).map (fun e => e.2)

/-- `XBDMCommand.value_to_type`: type inference from the raw token value. -/
def value_to_type (v : Str) : XBDMType :=
  if "0x".data.isPrefixOf v then .DWORD
  else if "0q".data.isPrefixOf v then .QWORD
  else if v.contains ' ' || "\"".data.isPrefixOf v || "'".data.isPrefixOf v then
    .QUOTED_STRING
  else if (pyInt? v).isSome then .INTEGER
  else .QUOTED_STRING

/-- `XBDMCommand.value_apply_type`: decode the raw token value at a type.
`none` models a raised exception (`ValueError` from `int` or
`bytes.fromhex`, `OverflowError`, ...). -/
def value_apply_type (v : Str) (t : XBDMType) : Option PyVal :=
  match t with
  | .DWORD =>
    if "0x".data.isPrefixOf v then
      (pyFromhexInt? (pyRjust (v.drop 2) 8 '0')).map (fun n => .int n)
    else (pyInt? v).map .int
  | .QWORD =>
    if "0x".data.isPrefixOf v || "0q".data.isPrefixOf v then
      (pyFromhexInt? (pyRjust (v.drop 2) 16 '0')).map (fun n => .int n)
    else (pyInt? v).map .int
  | .INTEGER => (pyInt? v).map .int
  | _ => some (.str v)

/-- `XBDMCommand.value_to_output`: encode a stored value at its type.
`none` models a raised exception (`int.to_bytes` on an out-of-range or
negative value, or attribute errors on a `str` where an `int` is due). -/
def value_to_output (v : PyVal) (t : XBDMType) : Option Str :=
  match t with
  | .DWORD =>
    match v with
    | .int i =>
      if i = 0 then some "0x0".data
      else if 0 ≤ i ∧ i < 2 ^ 32 then
        some ("0x".data ++ lstripZeros (hexDigits 8 i.toNat))
      else none
    | .str _ => none
  | .QWORD =>
    match v with
    | .int i =>
      if i = 0 then some "0q0".data
      else if 0 ≤ i ∧ i < 2 ^ 64 then
        some ("0q".data ++ lstripZeros (hexDigits 16 i.toNat))
      else none
    | .str _ => none
  | .QUOTED_STRING =>
    match v with
    | .int i => some ('"' :: pyIntToStr i ++ ['"'])
    | .str s => some ('"' :: s ++ ['"'])
  | .INTEGER =>
    match v with
    | .int i => some (pyIntToStr i)
    | .str s => some s
  | _ =>
    match v with
    | .int i => some (pyIntToStr i)
    | .str s => some s

/-- `XBDMCommand.set_param` (the `key.lower()` call is commented out in the
source; keys are stored with their original casing). -/
def set_param (m : CommonCmd) (k : Str) (v : PyVal) (t : XBDMType) : CommonCmd :=
  { m with args := assocSet m.args k v t }

/-- `XBDMCommand.set_flag`: append if not already present. -/
def set_flag (m : CommonCmd) (k : Str) : CommonCmd :=
  { m with flags := if k ∈ m.flags then m.flags else m.flags ++ [k] }

/-- The token loop at the end of `XBDMCommand.parse`: key/value tokens go
through `value_to_type` / `value_apply_type` / `set_param`, bare tokens
become flags. -/
def parseArgTokens (m : CommonCmd) : List Str → Option CommonCmd
  | [] => some m
  | tok :: ts =>
    if tok.contains '=' then
      let kv := splitFirstEq tok
      let t := value_to_type kv.2
      (value_apply_type kv.2 t).bind fun pv =>
        parseArgTokens (set_param m kv.1 pv t) ts
    else parseArgTokens (set_flag m tok) ts

/-- First-token dispatch of `XBDMCommand.parse`: a token ending in `-` is a
response code (`int` of the prefix, raising on non-digits); otherwise a
token containing `=` is part of a multiline string and is re-processed as a
key/value pair; otherwise it is the verb. -/
def parseTokens : List Str → Option CommonCmd
  | [] => none
  | t0 :: rest =>
    if endsWithDash t0 then
      (pyInt? (t0.dropLast)).bind fun c =>
        parseArgTokens { CommonCmd.empty with code := c } rest
    else if t0.contains '=' then
      parseArgTokens CommonCmd.empty (t0 :: rest)
    else
      parseArgTokens { CommonCmd.empty with name := some t0 } rest

/-- `XBDMCommand.parse` on a decoded line.  (`command.strip()` only removes
leading/trailing shlex whitespace, which the lexer already ignores, so it
does not change the token list.) -/
def XBDMCommand_parse (s : Str) : Option CommonCmd :=
  (lexTokens commonQuotes s).bind parseTokens

/-- Join a token list with single spaces (`" ".join`). -/
def joinSpace : List Str → Str
  | [] => []
  | u :: us => u ++ (us.map (fun v => ' ' :: v)).flatten

/-- `XBDMCommand.get_output` (with `line_ending=True`): serialize the
message to its wire line.  `none` models a raised exception from
`value_to_output`. -/
def get_output (m : CommonCmd) : Option Str := do
  let units ← m.args.mapM (fun e => do
    let w ← value_to_output e.2.1 e.2.2
    pure (e.1 ++ '=' :: w))
  let headPart : Str := if m.code ≠ 0 then pyIntToStr m.code ++ ['-']
    else m.name.getD []
  let ml : Bool := m.name = none && m.code = 0
  let argPart : Str :=
    if m.args ≠ [] then (if ml then [] else [' ']) ++ joinSpace units else []
  let flagPart : Str := if m.flags ≠ [] then ' ' :: joinSpace m.flags else []
  pure (headPart ++ argPart ++ flagPart ++ "\r\n".data)

/-- `XBDMCommand.get_param`: the exact `if` chain of the source. -/
def get_param (m : CommonCmd) (key : Str) (lc_check : Bool) : Option PyVal :=
  let val0 := assocGet m.args key
  let val1 := assocGet m.args (key.map Char.toLower)
  if lc_check = false ∧ val0.isSome then val0.map (fun e => e.1)
  else if lc_check = true ∧ val0 = none ∧ val1.isSome then val1.map (fun e => e.1)
  else if val0.isSome then val0.map (fun e => e.1)
  else if val1.isSome then val1.map (fun e => e.1)
  else none

example : XBDMCommand_parse "202- multiline response follows".data =
    some ⟨none, 202, [], ["multiline".data, "response".data, "follows".data]⟩ := by
  decide

example : XBDMCommand_parse "getmem ADDR=0xDEAD LENGTH=12 go".data =
    some ⟨some "getmem".data, 0,
      [("ADDR".data, .int 0xDEAD, .DWORD), ("LENGTH".data, .int 12, .INTEGER)],
      ["go".data]⟩ := by decide

example : XBDMCommand_parse "a=b c".data =
    some ⟨none, 0, [("a".data, .str "b".data, .QUOTED_STRING)], ["c".data]⟩ := by
  decide

example : get_output ⟨some "getmem".data, 0,
    [("ADDR".data, .int 0xDEAD, .DWORD)], ["go".data]⟩ =
    some "getmem ADDR=0xDEAD go\r\n".data := by decide

/-! ## `emulator.XBDMCommand`: the emulator's message object

Source: `src/emulator.py`.  This variant classifies the first token with
the regex `CODE_EXP = ^(\d+)-` (a prefix match), lowercases keys and flags,
and stores all parameter values as raw strings. -/

/-- The emulator message object. -/
structure EmuCmd where
  name : Option Str
  code : Int
  args : List (Str × Str)
  flags : List Str
deriving Repr, DecidableEq

/-- Python `dict` insertion for the emulator args map. -/
def emuAssocSet (args : List (Str × Str)) (k v : Str) : List (Str × Str) :=
  if args.any (fun e => e.1 = k) then
    args.map (fun e => if e.1 = k then (k, v) else e)
  else args ++ [(k, v)]

/-- `emulator.XBDMCommand.set_param` on a `str` value with `quoted=False`:
the key is lowercased, the value stored verbatim. -/
def emuSetParam (args : List (Str × Str)) (k v : Str) : List (Str × Str) :=
  emuAssocSet args (k.map Char.toLower) v

/-- `re.match` of `CODE_EXP = r"^(\d+)-"` followed by `int(match.group(1))`:
one or more leading digits immediately followed by `-`, anywhere-terminated. -/
def codeExpMatch (t : Str) : Option Nat :=
  let ds := t.takeWhile isDigitChar
  if ds ≠ [] ∧ (t.drop ds.length).head? = some '-' then some (digitsVal ds)
  else none

/-- The token loop of `emulator.XBDMCommand.parse`. -/
def emuParseArgTokens (m : EmuCmd) : List Str → EmuCmd
  | [] => m
  | tok :: ts =>
    if tok.contains '=' then
      let kv := splitFirstEq tok
      emuParseArgTokens { m with args := emuSetParam m.args kv.1 kv.2 } ts
    else
      let f := tok.map Char.toLower
      emuParseArgTokens
        { m with flags := if f ∈ m.flags then m.flags else m.flags ++ [f] } ts

/-- `emulator.XBDMCommand.parse` after lexing: `CODE_EXP` match means a
response code, anything else is the verb. -/
def emuParseTokens : List Str → Option EmuCmd
  | [] => none
  | t0 :: rest =>
    match codeExpMatch t0 with
    | some c => some (emuParseArgTokens ⟨none, (c : Int), [], []⟩ rest)
    | none => some (emuParseArgTokens ⟨some t0, 0, [], []⟩ rest)

/-- `emulator.XBDMCommand.parse` on a line. -/
def emuParse (s : Str) : Option EmuCmd :=
  (lexTokens emuQuotes s).bind emuParseTokens

/-- `emulator.XBDMCommand.get_output` (with `line_ending=True`). -/
def emuGetOutput (m : EmuCmd) : Str :=
  let headPart : Str := if m.code ≠ 0 then pyIntToStr m.code ++ ['-']
    else m.name.getD []
  let argPart : Str :=
    if m.args ≠ [] then ' ' :: joinSpace (m.args.map (fun e => e.1 ++ '=' :: e.2))
    else []
  let flagPart : Str := if m.flags ≠ [] then ' ' :: joinSpace m.flags else []
  headPart ++ argPart ++ flagPart ++ "\r\n".data

/-! ## `systime` handler pipeline

Source: `emulator.system_time`, `emulator.uint64_to_uint32` and the
`case "systime"` arm of `XBDMServerProtocol.data_received`. -/

/-- `emulator.system_time`: the whole number of seconds between
0001-01-01 23:00:00 UTC and now, times 10^7.  The `datetime` subtraction
itself is environmental; it enters as the `wholeSeconds` parameter
(`int(abs(dt2 - dt1).total_seconds())` in the source). -/
def system_time (wholeSeconds : Nat) : Nat := wholeSeconds * 10000000

/-- `emulator.uint64_to_uint32(num, as_hex=True)`: split a 64-bit value into
`["0x" + low 8 lowercase hex digits, "0x" + high 8 lowercase hex digits]`.
`struct.pack("<Q", num)` raises when `num` does not fit 64 bits (`none`). -/
def uint64_to_uint32_hex (num : Nat) : Option (Str × Str) :=
  if num < 2 ^ 64 then
    some ("0x".data ++ hexDigitsLower 8 (num % 2 ^ 32),
          "0x".data ++ hexDigitsLower 8 (num / 2 ^ 32))
  else none

/-- The `case "systime"` arm: build a `200` reply with parameters `high`
(set first) and `low` via the emulator message object and serialize it. -/
def systimeReply (wholeSeconds : Nat) : Option Str :=
  (uint64_to_uint32_hex (system_time wholeSeconds)).map fun lh =>
    emuGetOutput ⟨none, 200, emuSetParam (emuSetParam [] "high".data lh.2) "low".data lh.1, []⟩

example : systimeReply 3 =
    some "200- high=0x00000000 low=0x01c9c380\r\n".data := by decide

/-! ## The emulator's verb dispatch table

Source: the `match parsed.name.lower()` statement of
`XBDMServerProtocol.data_received` (src/emulator.py).  `handledVerbs` lists
exactly the `case` labels; the `case _` default arm only prints
`UNHANDLED COMMAND` to the console and writes nothing to the transport. -/

/-- A transport write: a reply line (`send_single_line` appends CRLF) or
raw bytes. -/
inductive Out where
  | line (s : String)
  | raw (b : List Nat)
deriving Repr, DecidableEq

/-- The `case` labels of the emulator's command dispatch, in source order. -/
def handledVerbs : List Str :=
  ["boxid".data, "xbupdate!drawtext".data, "xbupdate!version".data,
   "xbupdate!validatehddpartitions".data, "xbupdate!isflashclean".data,
   "xbupdate!instrecoverytype".data, "xbupdate!configure".data,
   "xbupdate!validdevice".data, "xbupdate!recovery".data,
   "xbupdate!sysfileupd".data, "xbupdate!flash".data,
   "xbupdate!commitsysextramdisk".data, "xbupdate!getregion".data,
   "xbupdate!setxamfeaturemask".data, "xbupdate!close".data,
   "xbupdate!finish".data, "xbupdate!restart".data, "recovery".data,
   "dbgname".data, "consoletype".data, "consolefeatures".data, "advmem".data,
   "altaddr".data, "systime".data, "systeminfo".data, "xbeinfo".data,
   "screenshot".data, "drivelist".data, "isdebugger".data, "break".data,
   "modules".data, "kdnet".data, "debugger".data, "drivefreespace".data,
   "dirlist".data, "setfileattributes".data, "getfileattributes".data,
   "mkdir".data, "getfile".data, "sendvfile".data, "sendfile".data,
   "rename".data, "delete".data, "setmem".data, "getmem".data,
   "getmemex".data, "setsystime".data, "notify".data, "notifyat".data,
   "lockmode".data, "user".data, "userlist".data, "keyxchg".data,
   "magicboot".data, "getuserpriv".data, "bye".data]

/-- The command-line arm of `data_received`, restricted to the dispatch
skeleton: parse the line, lowercase the verb, and look it up among the
`case` labels.  An arm whose label is in `handledVerbs` performs handler
work involving the host (filesystem, configuration, transport); none of the
claims settled in this file traverses those arms, so reaching one is
modelled as `none`.  The `case _` default arm prints to the console and
sends nothing: the session state and the transport are untouched.  A parsed
line with no verb crashes on `None.lower()` (`none`). -/
def dispatchLine (line : Str) : Option (List Out) :=
  (emuParse line).bind fun parsed =>
    match parsed.name with
    | none => none
    | some n => if n.map Char.toLower ∈ handledVerbs then none else some []

example : dispatchLine "qwerty x=1".data = some [] := by decide

/-! ## `xbdm_common.CRC32`

Source: `src/xbdm_common.py`, class `CRC32`, used with
`CRC32(0xFFFFFFFF, 0xEDB88320)` for xbupdate uploads. -/

/-- The polynomial the code base instantiates `CRC32` with. -/
def crcPoly : Nat := 0xEDB88320

/-- One bit of the inner loop of `CRC32.compute_table`: the pair is
`(byt, crc)`; the branch tests `(byt ^ crc) & 1`. -/
def crcTableBit (p : Nat × Nat) : Nat × Nat :=
  if (p.1 ^^^ p.2) &&& 1 = 1 then (p.1 >>> 1, (p.2 >>> 1) ^^^ crcPoly)
  else (p.1 >>> 1, p.2 >>> 1)

/-- One entry of `CRC32.compute_table`: eight bit steps from `(byt, 0)`,
masked to 32 bits. -/
def crcTableEntry (byt : Nat) : Nat :=
  ((crcTableBit^[8] (byt, 0)).2) &&& 0xFFFFFFFF

/-- `CRC32.compute_table`: the 256-entry table. -/
def crcTable : List Nat := (List.range 256).map crcTableEntry

/-- One byte of `CRC32.process`:
`self.value = self.table[(b ^ self.value) & 0xFF] ^ (self.value >> 8)`.
(Python list indexing; the index is `< 256` by the mask.) -/
def crcProcessByte (value b : Nat) : Nat :=
  crcTable.getD ((b ^^^ value) &&& 0xFF) 0 ^^^ (value >>> 8)

/-- `CRC32.process` on a fresh object (`self.value == 0`, so it is first
set to the init value `0xFFFFFFFF`), returning `self.value & 0xFFFFFFFF`. -/
def crcProcessOneShot (data : List Nat) : Nat :=
  (data.foldl crcProcessByte 0xFFFFFFFF) &&& 0xFFFFFFFF

/-- Modelled from the spec: one bit of the standard reflected (LSB-first)
CRC-32 update, polynomial `0xEDB88320`. -/
def crc32RefBit (c : Nat) : Nat :=
  if c &&& 1 = 1 then (c >>> 1) ^^^ crcPoly else c >>> 1

/-- Modelled from the spec: the standard reflected CRC-32 byte update. -/
def crc32RefByte (c b : Nat) : Nat := crc32RefBit^[8] (c ^^^ b)

/-- Modelled from the spec: the standard reflected CRC-32 of a byte
sequence, initial value `0xFFFFFFFF`, with no final XOR (no output
complement). -/
def crc32Ref (data : List Nat) : Nat := data.foldl crc32RefByte 0xFFFFFFFF

example : crcProcessOneShot [1, 2, 3] = crc32Ref [1, 2, 3] := by decide

set_option maxRecDepth 8000 in
example : crc32Ref ("123456789".data.map Char.toNat) = 0xCBF43926 ^^^ 0xFFFFFFFF := by
  decide

/-! ## `XBDMServerProtocol.data_received`: the receive state machine

Source: `src/emulator.py`.  The session state carries the file-transfer
variables of `XBDMServerProtocol`.  Disk writes are made observable: the
open sink (`file_handle`) holds the bytes written so far, and closing a
sink appends `(file_path, contents)` to `closed_log` (the bytes persisted
on disk).  `file_path` keeps the raw path bytes of the wire header
(`xbdm_to_local_path` and UTF-8 decoding map them to a host path; that
mapping is injective on the byte level and is not modelled).  Counters that
Python may drive negative are `Int`. -/

/-- `emulator.ReceiveFileType`. -/
inductive ReceiveFileType where
  | NONE | XBUPDATE_SINGLE | SENDFILE_SINGLE | SENDVFILE_MULTIPLE
deriving Repr, DecidableEq

/-- The file-transfer state of one `XBDMServerProtocol` session. -/
structure SrvState where
  receiving_file : Bool
  receiving_files : Bool
  num_files_total : Nat
  num_files_left : Int
  file_data_left : Int
  receiving_type : ReceiveFileType
  file_cksm : Nat
  file_path : List Nat
  file_handle : Option (List Nat)
  closed_log : List (List Nat × List Nat)
deriving Repr, DecidableEq

/-- The hard-coded 12-byte handshake artefact
`bytes.fromhex("020405B40103030801010402")`. -/
def magicBytes : List Nat :=
  [0x02, 0x04, 0x05, 0xB4, 0x01, 0x03, 0x03, 0x08, 0x01, 0x01, 0x04, 0x02]

/-- `raw_command.endswith(b"\r\n")`. -/
def endsCRLF (data : List Nat) : Bool :=
  match data.reverse with
  | 10 :: 13 :: _ => true
  | _ => false

/-- Big-endian 32-bit value of four bytes (`struct.unpack(">I", ...)`). -/
def be32val (b : List Nat) : Nat :=
  match b with
  | [b0, b1, b2, b3] => b0 * 2 ^ 24 + b1 * 2 ^ 16 + b2 * 2 ^ 8 + b3
  | _ => 0

/-- Big-endian 32-bit bytes of a value (`struct.pack(">I", ...)`). -/
def be32 (n : Nat) : List Nat :=
  [n / 2 ^ 24 % 256, n / 2 ^ 16 % 256, n / 2 ^ 8 % 256, n % 256]

/-- The header-parsing block of the multi-file branch: read a big-endian
`header_size`, then `header_size - 4` header bytes (creation/modify times,
`size_hi`/`size_lo`, attributes, then the NUL-terminated path), and return
`(file_size, path bytes, leftover bytes after the header)`.  `none` models
`struct.error` when fewer than 4 bytes arrive or the header block is
shorter than 28 bytes.  (`BytesIO.read` of a negative count — a wire
`header_size < 4` — returns everything that is left.) -/
def parseMultiHeader (data : List Nat) : Option (Nat × List Nat × List Nat) :=
  if data.length < 4 then none
  else
    let headerSize := be32val (data.take 4)
    let afterLen := data.drop 4
    let header := if 4 ≤ headerSize then afterLen.take (headerSize - 4) else afterLen
    if header.length < 28 then none
    else
      let sizeHi := be32val ((header.drop 16).take 4)
      let sizeLo := be32val ((header.drop 20).take 4)
      let fileSize := sizeLo + sizeHi * 2 ^ 32
      some (fileSize, (header.drop 28).dropLast, afterLen.drop header.length)

/-- The two trailing checks of the multi-file branch (run on every pass
that does not `return` out of the fragmentation case): close the sink when
`file_data_left == 0` (`None.close()` raises if no sink is open), and emit
the trailing acknowledgement when `num_files_left == 0`. -/
def multiBottom (st : SrvState) : Option (SrvState × List Out) := do
  let stA ←
    if st.file_data_left = 0 then
      match st.file_handle with
      | none => none
      | some buf =>
        some { st with file_handle := none,
                       num_files_left := st.num_files_left - 1,
                       file_data_left := 0, file_path := [],
                       closed_log := st.closed_log ++ [(st.file_path, buf)] }
    else some st
  if stA.num_files_left = 0 then
    pure ({ stA with num_files_total := 0, receiving_files := false },
      [Out.line "203- binary response follows",
       Out.raw (List.replicate (4 * stA.num_files_total) 0)])
  else
    pure (stA, [])

/-- `XBDMServerProtocol.data_received` restricted to the observable session
behaviour: which branch runs, how the transfer state evolves, what is
written to the transport, and what is persisted to disk.  The command-mode
arm goes through `dispatchLine` (ASCII command lines; `rstrip` of
`format_command` and `strip` of `parse` only discard trailing shlex
whitespace, which the lexer ignores).  The fragmentation case of the
multi-file branch re-delivers the leftover tail to `data_received`
recursively and `return`s, exactly as the source does.  Structural fuel
makes the definition kernel-computable. -/
def feedAux (fuel : Nat) (st : SrvState) (data : List Nat) :
    Option (SrvState × List Out) :=
  match fuel with
  | 0 => none
  | fuel + 1 =>
    if data = [] then some (st, [])
    else if endsCRLF data ∧ ¬(st.receiving_file ∨ st.receiving_files) then
      if data.all (fun b => b < 128) then
        (dispatchLine (data.map Char.ofNat)).map (fun outs => (st, outs))
      else none
    else if data = magicBytes then some (st, [Out.raw magicBytes])
    else if st.receiving_file then
      let buf := st.file_handle.getD [] ++ data
      let left := st.file_data_left - data.length
      if left = 0 then
        let outs : List Out :=
          match st.receiving_type with
          | .SENDFILE_SINGLE =>
            [Out.line "203- binary response follows", Out.raw (List.replicate 4 0)]
          | .XBUPDATE_SINGLE => [Out.line "200- OK"]
          | _ => []
        some ({ st with file_handle := none, file_path := [],
                        receiving_file := false, receiving_type := .NONE,
                        file_data_left := 0,
                        closed_log := st.closed_log ++ [(st.file_path, buf)] },
              outs)
      else some ({ st with file_handle := some buf, file_data_left := left }, [])
    else if st.receiving_files then
      if st.num_files_left > 0 ∧ st.file_handle = none ∧ st.file_data_left = 0 then
        match parseMultiHeader data with
        | none => none
        | some fpr =>
          multiBottom { st with file_path := fpr.2.1,
                                file_handle := some fpr.2.2,
                                file_data_left := (fpr.1 : Int) - fpr.2.2.length }
      else if st.num_files_left > 0 ∧ st.file_handle ≠ none ∧
          st.file_data_left > 0 then
        let buf := st.file_handle.getD []
        if st.file_data_left < data.length then
          let newLog := st.closed_log ++
            [(st.file_path, buf ++ data.take st.file_data_left.toNat)]
          feedAux fuel
            { st with
              closed_log := newLog,
              file_handle := none,
              num_files_left := st.num_files_left - 1,
              file_path := [], file_data_left := 0 }
            (data.drop st.file_data_left.toNat)
        else
          multiBottom { st with file_handle := some (buf ++ data),
                                file_data_left := st.file_data_left - data.length }
      else multiBottom st
    else some (st, [])

/-- `XBDMServerProtocol.data_received`: the re-delivery recursion of the
fragmentation case consumes at least one byte per pass, so `data.length + 1`
units of fuel always suffice (`feedAux_fuel` below). -/
def feed (st : SrvState) (data : List Nat) : Option (SrvState × List Out) :=
  feedAux (data.length + 1) st data

/-- Deliver a sequence of socket reads to a session. -/
def feedAll (st : SrvState) : List (List Nat) → Option (SrvState × List Out)
  | [] => some (st, [])
  | r :: rs =>
    (feed st r).bind fun p =>
      (feedAll p.1 rs).map fun q => (q.1, p.2 ++ q.2)

/-- The session state right after a successful `sendvfile COUNT=k` command
(`num_files_total = num_files_left = k`, `receiving_files = True`, transfer
variables fresh). -/
def multiStart (k : Nat) : SrvState :=
  ⟨false, true, k, (k : Int), 0, .NONE, 0, [], none, []⟩

/-- One file of a `sendvfile` transfer as the client describes it: the
time/attribute metadata, the virtual path bytes, and the body bytes. -/
structure FileRec where
  createHi : Nat
  createLo : Nat
  modifyHi : Nat
  modifyLo : Nat
  attrs : Nat
  path : List Nat
  body : List Nat
deriving Repr, DecidableEq

/-- The wire header of one `sendvfile` file: a big-endian total header size
(4 size bytes + 28 metadata bytes + path + NUL), the seven 32-bit fields,
the path, and the NUL terminator. -/
def mkHeaderBytes (f : FileRec) : List Nat :=
  be32 (33 + f.path.length) ++ be32 f.createHi ++ be32 f.createLo ++
    be32 f.modifyHi ++ be32 f.modifyLo ++ be32 (f.body.length / 2 ^ 32) ++
    be32 (f.body.length % 2 ^ 32) ++ be32 f.attrs ++ f.path ++ [0] ++ []

/-- The complete wire bytes of one `sendvfile` file: header then body. -/
def mkChunk (f : FileRec) : List Nat := mkHeaderBytes f ++ f.body

/-- Well-formedness of a transfer file: the declared sizes fit the wire
fields (64-bit body length, 32-bit header size). -/
def WfFile (f : FileRec) : Prop :=
  f.body.length < 2 ^ 64 ∧ 33 + f.path.length < 2 ^ 32

/-- The socket-read schedules of a `sendvfile` transfer that the code
supports: each file's header arrives whole at the front of a read (or of a
re-delivered tail), the body follows in nonempty pieces, and a read never
runs past the end of the file whose header it carries.  The constructor-free
`[]` case requires the reads to be exhausted exactly at the last file
boundary.  The second disjunct is the fragmentation case: the last piece of
a file's body shares one read with the start of the next file. -/
def Sched : List FileRec → List (List Nat) → Prop
  | [], reads => reads = []
  | f :: fs, reads =>
    ∃ p0 mids, (∀ p ∈ mids, p ≠ []) ∧
      ((f.body = p0 ++ mids.flatten ∧
        ∃ rest, reads = (mkHeaderBytes f ++ p0) :: (mids ++ rest) ∧ Sched fs rest) ∨
       (∃ lastPiece r rest, f.body = p0 ++ mids.flatten ++ lastPiece ∧
        lastPiece ≠ [] ∧ Sched fs (r :: rest) ∧
        reads = (mkHeaderBytes f ++ p0) :: (mids ++ (lastPiece ++ r) :: rest)))

/-- A concrete two-file transfer used to sanity-check the model. -/
def egFile1 : FileRec := ⟨0, 0, 0, 0, 0, [65], [1, 2, 3]⟩

/-- Second concrete file. -/
def egFile2 : FileRec := ⟨0, 0, 0, 0, 0, [66], [4, 5]⟩

example :
    feedAll (multiStart 2)
      [mkHeaderBytes egFile1, [1, 2], [3] ++ mkHeaderBytes egFile2 ++ [4], [5]] =
    some ({ multiStart 2 with
            receiving_files := false, num_files_total := 0, num_files_left := 0,
            closed_log := [([65], [1, 2, 3]), ([66], [4, 5])] },
      [Out.line "203- binary response follows", Out.raw (List.replicate 8 0)]) := by
  decide

example :
    feed ⟨true, false, 0, 0, 3, .SENDFILE_SINGLE, 0, [7], some [9], []⟩ [1, 2, 3] =
    some (⟨false, false, 0, 0, 0, .NONE, 0, [], none, [([7], [9, 1, 2, 3])]⟩,
      [Out.line "203- binary response follows", Out.raw [0, 0, 0, 0]]) := by decide

example :
    feed ⟨false, true, 2, 2, 5, .NONE, 0, [7], some [9], []⟩ magicBytes =
    some (⟨false, true, 2, 2, 5, .NONE, 0, [7], some [9], []⟩,
      [Out.raw magicBytes]) := by decide

/-! ## Well-formedness of API-built messages (for the round-trip law)

The round-trip law quantifies over messages built through the message API
(`set_name` / `set_code` / `set_param` / `set_flag`).  The following
predicates carve out the messages whose emitted line tokenizes back the way
it was built: tokens are nonempty and free of shlex whitespace, quotes and
the shlex comment character; values re-infer to a type that preserves
them. -/

/-- A character that survives as-is inside an unquoted shlex token. -/
def plainChar (c : Char) : Bool := !isShlexWS c && c ≠ '"' && c ≠ '#'

/-- A single unquoted shlex token: nonempty, all characters plain. -/
def plainTok (s : Str) : Bool := !s.isEmpty && s.all plainChar

/-- Well-formed verb: a plain token, no `=`, not ending in `-`. -/
def wfVerb (s : Str) : Bool := plainTok s && !s.contains '=' && !endsWithDash s

/-- Well-formed flag: a plain token without `=`. -/
def wfFlag (s : Str) : Bool := plainTok s && !s.contains '='

/-- Well-formed typed parameter value: `DWORD`/`QWORD` values fit their
width; string values are ASCII (the `int` model's domain), contain no `"`
and re-infer to a string type (they do not carry a `0x`/`0q` prefix and do
not read back as integers); `STRING` values are single plain tokens. -/
def wfValue : PyVal → XBDMType → Bool
  | .int i, .DWORD => decide (0 ≤ i) && decide (i < 2 ^ 32)
  | .int i, .QWORD => decide (0 ≤ i) && decide (i < 2 ^ 64)
  | .int _, .INTEGER => true
  | .str s, .QUOTED_STRING =>
    !s.contains '"' && !"0x".data.isPrefixOf s && !"0q".data.isPrefixOf s &&
      (s.contains ' ' || "'".data.isPrefixOf s || (pyInt? s).isNone) &&
      s.all isAsciiChar
  | .str s, .STRING =>
    plainTok s && !"0x".data.isPrefixOf s && !"0q".data.isPrefixOf s &&
      !"'".data.isPrefixOf s && (pyInt? s).isNone && s.all isAsciiChar
  | _, _ => false

/-- Well-formed parameter entry: plain key without `=`, well-formed value. -/
def wfArg (e : Str × PyVal × XBDMType) : Bool :=
  plainTok e.1 && !e.1.contains '=' && wfValue e.2.1 e.2.2

/-- Well-formed head: a well-formed verb with code 0, or no verb and a
positive status code (the claims' "a verb or a status code"). -/
def wfHead (m : CommonCmd) : Bool :=
  match m.name with
  | some n => wfVerb n && decide (m.code = 0)
  | none => decide (0 < m.code)

/-- Well-formed API-built message: exactly one of verb and (positive)
status code, well-formed distinct-key parameters, well-formed distinct
flags.  (`set_param` keeps one entry per key and `set_flag` deduplicates,
so distinctness holds for every API-built message.) -/
def wfMsg (m : CommonCmd) : Prop :=
  wfHead m = true ∧
  (∀ e ∈ m.args, wfArg e = true) ∧ (m.args.map (fun e => e.1)).Nodup ∧
  (∀ f ∈ m.flags, wfFlag f = true) ∧ m.flags.Nodup

/-- The type a well-formed parameter comes back with after a round trip:
`value_to_type` never answers `STRING`, so `STRING` parameters re-infer as
`QUOTED_STRING`; every other well-formed type is preserved. -/
def canonType : XBDMType → XBDMType
  | .STRING => .QUOTED_STRING
  | t => t

instance (m : CommonCmd) : Decidable (wfMsg m) :=
  inferInstanceAs (Decidable (_ ∧ _))

example : wfValue (.str "1_2".data) .QUOTED_STRING = false := by decide

example :
    (get_output ⟨some "v".data, 0,
      [("k".data, .str "1_2".data, .QUOTED_STRING)], []⟩).bind
      XBDMCommand_parse =
    some ⟨some "v".data, 0, [("k".data, .int 12, .INTEGER)], []⟩ := by decide

/-- The raw (lexer-level) text of a well-formed parameter value on the
wire: what stands between `=` and the next separator once the lexer has
stripped the quotes that `value_to_output` may add. -/
def rawValue : PyVal → XBDMType → Str
  | .int i, .DWORD =>
    if i = 0 then "0x0".data else "0x".data ++ lstripZeros (hexDigits 8 i.toNat)
  | .int i, .QWORD =>
    if i = 0 then "0q0".data else "0q".data ++ lstripZeros (hexDigits 16 i.toNat)
  | .str s, .QUOTED_STRING => s
  | .int i, _ => pyIntToStr i
  | .str s, _ => s

/-- The emitted text of a parameter value: `rawValue` wrapped in the quotes
that `value_to_output` adds around `QUOTED_STRING` values. -/
def outValue (v : PyVal) (t : XBDMType) : Str :=
  match t with
  | .QUOTED_STRING => '"' :: rawValue v t ++ ['"']
  | _ => rawValue v t

/-- The emitted `key=value` unit of one parameter entry, as built inside
`get_output`. -/
def unitStr (e : Str × PyVal × XBDMType) : Str :=
  e.1 ++ '=' :: outValue e.2.1 e.2.2

/-- The token the lexer recovers from one emitted parameter unit. -/
def argTok (e : Str × PyVal × XBDMType) : Str :=
  e.1 ++ '=' :: rawValue e.2.1 e.2.2

/-- The head token of the emitted line: `code-` for replies, the verb for
commands (the two head branches at the top of `get_output`). -/
def headTok (m : CommonCmd) : Str :=
  if m.code ≠ 0 then pyIntToStr m.code ++ ['-'] else m.name.getD []

/-- A string the common lexer consumes, starting at a token boundary, into
a single in-progress token `t` (quotes closed again, no comment open),
independently of the tokens already completed. -/
def EmitU (u t : Str) : Prop :=
  ∀ acc, lexRun commonQuotes u ⟨none, none, acc, false⟩ = ⟨none, some t, acc, false⟩

/-- The round-tripped image of a message: same head, parameter keys,
parameter values and flags; each parameter's type replaced by the type
`value_to_type` re-infers from its emitted text. -/
def canonMsg (m : CommonCmd) : CommonCmd :=
  { m with args := m.args.map (fun e => (e.1, e.2.1, canonType e.2.2)) }

/-! ## Toolkit: decimal and hexadecimal digit lemmas -/

theorem natDigitsAux_fuel (n : Nat) : ∀ fuel, n < fuel →
    natDigitsAux fuel n = natDigits n := by
  induction n using Nat.strong_induction_on with
  | _ n ih =>
    intro fuel hf
    match fuel, hf with
    | f + 1, hf =>
      show natDigitsAux (f + 1) n = natDigitsAux (n + 1) n
      simp only [natDigitsAux]
      by_cases h10 : n < 10
      · simp [h10]
      · have hd : n / 10 * 10 ≤ n := Nat.div_mul_le_self n 10
        have h1 : n / 10 < f := by omega
        have h2 : n / 10 < n := by omega
        simp only [h10, if_false]
        rw [ih (n / 10) h2 f h1, ih (n / 10) h2 n h2]

theorem natDigits_unfold (n : Nat) :
    natDigits n = if n < 10 then [Nat.digitChar n]
      else natDigits (n / 10) ++ [Nat.digitChar (n % 10)] := by
  show natDigitsAux (n + 1) n = _
  simp only [natDigitsAux]
  by_cases h10 : n < 10
  · simp [h10]
  · have hd : n / 10 * 10 ≤ n := Nat.div_mul_le_self n 10
    rw [natDigitsAux_fuel (n / 10) n (by omega)]

theorem digitChar_isDigit {k : Nat} (h : k < 10) : isDigitChar (Nat.digitChar k) = true := by
  interval_cases k <;> decide

theorem digitChar_val {k : Nat} (h : k < 10) : digitVal (Nat.digitChar k) = k := by
  interval_cases k <;> decide

theorem natDigits_all_digits (n : Nat) : (natDigits n).all isDigitChar = true := by
  induction n using Nat.strong_induction_on with
  | _ n ih =>
    rw [natDigits_unfold]
    by_cases h10 : n < 10
    · simp [h10, digitChar_isDigit h10]
    · have hd : n / 10 * 10 ≤ n := Nat.div_mul_le_self n 10
      simp only [h10, if_false, List.all_append]
      rw [ih (n / 10) (by omega)]
      simp [digitChar_isDigit (Nat.mod_lt n (by omega))]

theorem natDigits_ne_nil (n : Nat) : natDigits n ≠ [] := by
  rw [natDigits_unfold]
  by_cases h10 : n < 10 <;> simp [h10]

theorem digitsVal_append_one (xs : Str) (c : Char) :
    digitsVal (xs ++ [c]) = digitsVal xs * 10 + digitVal c := by
  simp [digitsVal, List.foldl_append]

theorem digitsVal_natDigits (n : Nat) : digitsVal (natDigits n) = n := by
  induction n using Nat.strong_induction_on with
  | _ n ih =>
    rw [natDigits_unfold]
    by_cases h10 : n < 10
    · simp [h10, digitsVal, digitChar_val h10]
    · have hd : n / 10 * 10 ≤ n := Nat.div_mul_le_self n 10
      have hm : n % 10 < 10 := Nat.mod_lt n (by omega)
      simp only [h10, if_false]
      rw [digitsVal_append_one, ih (n / 10) (by omega), digitChar_val hm]
      omega

theorem digitsVal?_natDigits (n : Nat) : digitsVal? (natDigits n) = some n := by
  simp [digitsVal?, natDigits_ne_nil, natDigits_all_digits, digitsVal_natDigits]

theorem natDigits_head_digit (n : Nat) :
    ∃ h t, natDigits n = h :: t ∧ isDigitChar h = true := by
  have hall := natDigits_all_digits n
  have hne := natDigits_ne_nil n
  match hline : natDigits n with
  | [] => exact absurd hline hne
  | h :: t =>
    refine ⟨h, t, rfl, ?_⟩
    rw [hline] at hall
    simp [List.all_cons] at hall
    exact hall.1

theorem isPySpace_false_of_digit {c : Char} (h : isDigitChar c = true) :
    isPySpace c = false := by
  cases hps : isPySpace c
  · rfl
  · exfalso
    unfold isPySpace at hps
    have hmem : c ∈ ['\t', '\n', '\x0b', '\x0c', '\x0d', '\x1c', '\x1d',
        '\x1e', '\x1f', ' '] := of_decide_eq_true hps
    fin_cases hmem <;> exact absurd h (by decide)

theorem stripPyWS_id {s : Str} (h : ∀ c ∈ s, isPySpace c = false) :
    stripPyWS s = s := by
  unfold stripPyWS
  have h1 : s.dropWhile isPySpace = s := by
    cases s with
    | nil => rfl
    | cons c t =>
      rw [List.dropWhile_cons, if_neg (by rw [h c (List.mem_cons_self _ _)]; simp)]
  rw [h1]
  have h2 : s.reverse.dropWhile isPySpace = s.reverse := by
    cases hr : s.reverse with
    | nil => rfl
    | cons c t =>
      have hcm : c ∈ s := by
        rw [← List.mem_reverse, hr]
        exact List.mem_cons_self _ _
      rw [List.dropWhile_cons, if_neg (by rw [h c hcm]; simp)]
  rw [h2, List.reverse_reverse]

theorem uRunCont_cons (c : Char) (rest : Str) :
    uRunCont (c :: rest) =
      if c = '_' then
        (match rest with
         | [] => false
         | d :: rest2 => isDigitChar d && uRunCont rest2)
      else isDigitChar c && uRunCont rest := by
  rw [uRunCont.eq_def]
  rfl

theorem uRunCont_digits {s : Str} (h : s.all isDigitChar = true) :
    uRunCont s = true := by
  induction s with
  | nil => rfl
  | cons c t ih =>
    simp only [List.all_cons, Bool.and_eq_true] at h
    have hne : ¬c = '_' := by
      rintro rfl
      simp [isDigitChar] at h
    rw [uRunCont_cons, if_neg hne]
    simp [h.1, ih h.2]

theorem uRun_digits {s : Str} (h1 : s ≠ []) (h2 : s.all isDigitChar = true) :
    uRun s = true := by
  match s, h1 with
  | c :: t, _ =>
    simp only [List.all_cons, Bool.and_eq_true] at h2
    rw [uRun]
    simp [h2.1, uRunCont_digits h2.2]

theorem uVal_digits {s : Str} (h : s.all isDigitChar = true) :
    uVal s = digitsVal s := by
  unfold uVal
  congr 1
  rw [List.filter_eq_self]
  intro c hc
  have hd := List.all_eq_true.mp h c hc
  simp only [ne_eq, decide_eq_true_eq]
  rintro rfl
  simp [isDigitChar] at hd

theorem pyInt?_digits {s : Str} (h1 : s ≠ []) (h2 : s.all isDigitChar = true) :
    pyInt? s = some (digitsVal s : Int) := by
  match s, h1 with
  | c :: t, _ =>
    have hall := h2
    simp only [List.all_cons, Bool.and_eq_true] at h2
    have hc : isDigitChar c = true := h2.1
    have hcm : ¬c = '-' := by rintro rfl; simp [isDigitChar] at hc
    have hcp : ¬c = '+' := by rintro rfl; simp [isDigitChar] at hc
    unfold pyInt?
    rw [stripPyWS_id (fun x hx =>
      isPySpace_false_of_digit (List.all_eq_true.mp hall x hx))]
    rw [pyIntCore?, if_neg hcm, if_neg hcp,
      if_pos (uRun_digits (List.cons_ne_nil c t) hall), uVal_digits hall]

theorem pyInt?_pyIntToStr (i : Int) : pyInt? (pyIntToStr i) = some i := by
  unfold pyIntToStr
  by_cases hneg : i < 0
  · simp only [hneg, if_true]
    unfold pyInt?
    rw [stripPyWS_id ?hsp]
    case hsp =>
      intro x hx
      rcases List.mem_cons.mp hx with hx | hx
      · rw [hx]; decide
      · exact isPySpace_false_of_digit
          (List.all_eq_true.mp (natDigits_all_digits _) x hx)
    rw [pyIntCore?, if_pos rfl,
      if_pos (uRun_digits (natDigits_ne_nil _) (natDigits_all_digits _)),
      uVal_digits (natDigits_all_digits _), digitsVal_natDigits]
    show some (-(i.natAbs : Int)) = some i
    congr 1
    omega
  · simp only [hneg, if_false]
    rw [pyInt?_digits (natDigits_ne_nil _) (natDigits_all_digits _),
      digitsVal_natDigits]
    congr 1
    omega

theorem hexDigitUpper_isHex {k : Nat} (h : k < 16) :
    isHexChar (hexDigitUpper k) = true := by
  interval_cases k <;> decide

theorem hexDigitUpper_val {k : Nat} (h : k < 16) :
    hexCharVal (hexDigitUpper k) = k := by
  interval_cases k <;> decide

theorem hexDigitUpper_mem {k : Nat} (h : k < 16) :
    hexDigitUpper k ∈ "0123456789ABCDEF".data := by
  interval_cases k <;> decide

theorem hexDigitUpper_ne_space {k : Nat} (h : k < 16) : hexDigitUpper k ≠ ' ' := by
  interval_cases k <;> decide

theorem hexDigits_length (w v : Nat) : (hexDigits w v).length = w := by
  induction w generalizing v with
  | zero => rfl
  | succ w ih => simp [hexDigits, ih]

theorem hexDigits_mem {w v : Nat} {c : Char} (h : c ∈ hexDigits w v) :
    ∃ k, k < 16 ∧ c = hexDigitUpper k := by
  induction w generalizing v with
  | zero => simp [hexDigits] at h
  | succ w ih =>
    simp only [hexDigits, List.mem_append, List.mem_singleton] at h
    rcases h with h | h
    · exact ih h
    · exact ⟨v % 16, Nat.mod_lt v (by omega), h⟩

theorem hexVal_append_one (xs : Str) (c : Char) :
    hexVal (xs ++ [c]) = hexVal xs * 16 + hexCharVal c := by
  simp [hexVal, List.foldl_append]

theorem hexVal_hexDigits {w v : Nat} (h : v < 16 ^ w) :
    hexVal (hexDigits w v) = v := by
  induction w generalizing v with
  | zero =>
    simp [Nat.pow_zero] at h
    simp [hexDigits, hexVal, h]
  | succ w ih =>
    have hdiv : v / 16 < 16 ^ w := by
      rw [Nat.div_lt_iff_lt_mul (by omega)]
      calc v < 16 ^ (w + 1) := h
        _ = 16 ^ w * 16 := by ring
    rw [hexDigits, hexVal_append_one, ih hdiv, hexDigitUpper_val (Nat.mod_lt v (by omega))]
    omega

theorem hexVal_zeros {cs : Str} (h : ∀ c ∈ cs, c = '0') : hexVal cs = 0 := by
  induction cs with
  | nil => rfl
  | cons c t ih =>
    have hc := h c (by simp)
    subst hc
    show hexVal t = 0
    exact ih (fun c hc => h c (by simp [hc]))

theorem takeWhile_eq_replicate {cs : Str} :
    cs.takeWhile (fun c => c = '0') =
      List.replicate (cs.takeWhile (fun c => c = '0')).length '0' := by
  apply List.eq_replicate_of_mem
  intro c hc
  have := List.mem_takeWhile_imp hc
  simpa using this

theorem lstripZeros_reconstruct (cs : Str) :
    List.replicate (cs.length - (lstripZeros cs).length) '0' ++ lstripZeros cs = cs := by
  have hsplit := List.takeWhile_append_dropWhile (p := fun c => c = '0') (l := cs)
  have hlen : (cs.takeWhile (fun c => c = '0')).length =
      cs.length - (lstripZeros cs).length := by
    have := congrArg List.length hsplit
    simp only [List.length_append] at this
    unfold lstripZeros
    omega
  conv_rhs => rw [← hsplit]
  rw [← hlen, ← takeWhile_eq_replicate]
  rfl

theorem lstripZeros_length_le (cs : Str) : (lstripZeros cs).length ≤ cs.length := by
  have := congrArg List.length (lstripZeros_reconstruct cs)
  simp only [List.length_append] at this
  omega

theorem lstripZeros_head_ne {cs : Str} {c : Char} {t : Str}
    (h : lstripZeros cs = c :: t) : c ≠ '0' := by
  unfold lstripZeros at h
  induction cs with
  | nil => simp at h
  | cons x xs ih =>
    by_cases hx : x = '0'
    · apply ih
      rwa [List.dropWhile_cons_of_pos (by simp [hx])] at h
    · rw [List.dropWhile_cons_of_neg (by simp [hx])] at h
      rw [List.cons.injEq] at h
      exact h.1 ▸ hx

theorem pyRjust_lstrip_hexDigits (w v : Nat) :
    pyRjust (lstripZeros (hexDigits w v)) w '0' = hexDigits w v := by
  have hrec := lstripZeros_reconstruct (hexDigits w v)
  have hle := lstripZeros_length_le (hexDigits w v)
  rw [hexDigits_length] at hrec hle
  unfold pyRjust
  split
  · rename_i hcase
    have h0 : w - (lstripZeros (hexDigits w v)).length = 0 := by omega
    rw [h0, List.replicate_zero, List.nil_append] at hrec
    exact hrec
  · exact hrec

theorem hexDigits_no_space (w v : Nat) : ∀ c ∈ hexDigits w v, c ≠ ' ' := by
  intro c hc
  obtain ⟨k, hk, rfl⟩ := hexDigits_mem hc
  exact hexDigitUpper_ne_space hk

theorem hexDigits_all_hex (w v : Nat) : (hexDigits w v).all isHexChar = true := by
  rw [List.all_eq_true]
  intro c hc
  obtain ⟨k, hk, rfl⟩ := hexDigits_mem hc
  exact hexDigitUpper_isHex hk

theorem pyFromhexInt?_hexDigits {w v : Nat} (hv : v < 16 ^ w) (hw : w % 2 = 0) :
    pyFromhexInt? (hexDigits w v) = some v := by
  unfold pyFromhexInt?
  have hfil : (hexDigits w v).filter (fun c => c ≠ ' ') = hexDigits w v := by
    rw [List.filter_eq_self]
    intro c hc
    simpa using hexDigits_no_space w v c hc
  simp only [hfil]
  rw [if_pos ⟨by rw [hexDigits_length]; exact hw, hexDigits_all_hex w v⟩]
  rw [hexVal_hexDigits hv]

theorem hexStripRoundtrip {w v : Nat} (hv : v < 16 ^ w) (hw : w % 2 = 0) :
    pyFromhexInt? (pyRjust (lstripZeros (hexDigits w v)) w '0') = some v := by
  rw [pyRjust_lstrip_hexDigits, pyFromhexInt?_hexDigits hv hw]

theorem lstripZeros_hexDigits_ne_nil {w v : Nat} (hv : v < 16 ^ w) (h0 : 0 < v) :
    lstripZeros (hexDigits w v) ≠ [] := by
  intro hnil
  have hrec := lstripZeros_reconstruct (hexDigits w v)
  rw [hnil, List.append_nil] at hrec
  have : hexVal (hexDigits w v) = 0 := by
    rw [← hrec]
    exact hexVal_zeros (fun c hc => by simpa using List.eq_of_mem_replicate hc)
  rw [hexVal_hexDigits hv] at this
  omega

/-! ## Claim C4: the DWORD wire format -/

/-- Claim C4: DWORD serialization emits `0x` followed by 1-8 uppercase hex
characters with leading zeros stripped, the value 0 serializing as the
special form `0x0` (and QWORD 0 as `0q0`); and the maximal DWORD
`0xFFFFFFFF` survives an emit-then-parse round trip unchanged. -/
theorem C4_dword_wire_format (v : Nat) (h0 : 0 < v) (h1 : v < 2 ^ 32) :
    (∃ body : Str,
      value_to_output (.int v) .DWORD = some ("0x".data ++ body) ∧
      1 ≤ body.length ∧ body.length ≤ 8 ∧
      (∀ c ∈ body, c ∈ "0123456789ABCDEF".data) ∧
      body.head? ≠ some '0') ∧
    value_to_output (.int 0) .DWORD = some "0x0".data ∧
    value_to_output (.int 0) .QWORD = some "0q0".data ∧
    (value_to_output (.int 0xFFFFFFFF) .DWORD).bind
      (fun wire => value_apply_type wire (value_to_type wire)) =
      some (.int 0xFFFFFFFF) := by
  refine ⟨?_, by decide, by decide, by decide⟩
  have hv16 : v < 16 ^ 8 := by norm_num at h1 ⊢; omega
  refine ⟨lstripZeros (hexDigits 8 v), ?_, ?_, ?_, ?_, ?_⟩
  · show value_to_output (.int (v : Int)) .DWORD = _
    dsimp only [value_to_output]
    have hne : (v : Int) ≠ 0 := by omega
    rw [if_neg hne, if_pos ⟨by omega, by exact_mod_cast h1⟩]
    rw [Int.toNat_natCast]
  · have := lstripZeros_hexDigits_ne_nil hv16 h0
    cases hb : lstripZeros (hexDigits 8 v) with
    | nil => exact absurd hb this
    | cons c t => simp
  · have := lstripZeros_length_le (hexDigits 8 v)
    rwa [hexDigits_length] at this
  · intro c hc
    have hsub : c ∈ hexDigits 8 v := List.dropWhile_subset _ hc
    obtain ⟨k, hk, rfl⟩ := hexDigits_mem hsub
    exact hexDigitUpper_mem hk
  · cases hb : lstripZeros (hexDigits 8 v) with
    | nil => simp
    | cons c t =>
      have := lstripZeros_head_ne hb
      simp [this]

/-- Witness for C4 at the concrete DWORD `0x4096`. -/
theorem C4_dword_wire_format_witness :
    0 < 0x4096 ∧ 0x4096 < 2 ^ 32 ∧
    ((∃ body : Str,
      value_to_output (.int 0x4096) .DWORD = some ("0x".data ++ body) ∧
      1 ≤ body.length ∧ body.length ≤ 8 ∧
      (∀ c ∈ body, c ∈ "0123456789ABCDEF".data) ∧
      body.head? ≠ some '0') ∧
    value_to_output (.int 0) .DWORD = some "0x0".data ∧
    value_to_output (.int 0) .QWORD = some "0q0".data ∧
    (value_to_output (.int 0xFFFFFFFF) .DWORD).bind
      (fun wire => value_apply_type wire (value_to_type wire)) =
      some (.int 0xFFFFFFFF)) :=
  ⟨by decide, by decide, C4_dword_wire_format 0x4096 (by decide) (by decide)⟩

/-! ## Claim C10: `get_param` case fallback ignores `lc_check=False` -/

/-- Claim C10: for every parsed message and key, `get_param` falls back to
the lowercased key whenever the exact-case key is absent, regardless of the
`lc_check` argument: `get_param(key, lc_check=False)` still returns the
value stored under `key.lower()`, and agrees with `lc_check=True`. -/
theorem C10_get_param_fallback (m : CommonCmd) (key : Str) (v : PyVal) (t : XBDMType)
    (h0 : assocGet m.args key = none)
    (h1 : assocGet m.args (key.map Char.toLower) = some (v, t)) :
    get_param m key false = some v ∧
    get_param m key false = get_param m key true := by
  unfold get_param
  rw [h0, h1]
  simp

/-- Witness for C10: the key `K` is stored only as `k`; lookup with
`lc_check=False` still finds it. -/
theorem C10_get_param_fallback_witness :
    assocGet (CommonCmd.mk (some "t".data) 0 [("k".data, PyVal.int 7, .INTEGER)] []).args
      "K".data = none ∧
    assocGet (CommonCmd.mk (some "t".data) 0 [("k".data, PyVal.int 7, .INTEGER)] []).args
      ("K".data.map Char.toLower) = some (PyVal.int 7, .INTEGER) ∧
    (get_param (CommonCmd.mk (some "t".data) 0 [("k".data, PyVal.int 7, .INTEGER)] [])
      "K".data false = some (PyVal.int 7) ∧
     get_param (CommonCmd.mk (some "t".data) 0 [("k".data, PyVal.int 7, .INTEGER)] [])
      "K".data false =
     get_param (CommonCmd.mk (some "t".data) 0 [("k".data, PyVal.int 7, .INTEGER)] [])
      "K".data true) :=
  ⟨by decide, by decide,
    C10_get_param_fallback _ "K".data (PyVal.int 7) .INTEGER (by decide) (by decide)⟩

/-! ## Parse-loop preservation lemmas -/

theorem parseArgTokens_head : ∀ (ts : List Str) (m m' : CommonCmd),
    parseArgTokens m ts = some m' → m'.name = m.name ∧ m'.code = m.code := by
  intro ts
  induction ts with
  | nil => intro m m' h; cases h; exact ⟨rfl, rfl⟩
  | cons tok ts ih =>
    intro m m' h
    rw [parseArgTokens] at h
    by_cases htok : tok.contains '='
    · rw [if_pos htok] at h
      dsimp only at h
      cases hv : value_apply_type (splitFirstEq tok).2 (value_to_type (splitFirstEq tok).2) with
      | none => rw [hv] at h; simp at h
      | some pv =>
        rw [hv] at h
        simp only [Option.some_bind] at h
        exact ih (set_param m (splitFirstEq tok).1 pv (value_to_type (splitFirstEq tok).2)) m' h
    · rw [if_neg htok] at h
      exact ih (set_flag m tok) m' h

theorem emuParseArgTokens_head : ∀ (ts : List Str) (m : EmuCmd),
    (emuParseArgTokens m ts).name = m.name ∧ (emuParseArgTokens m ts).code = m.code := by
  intro ts
  induction ts with
  | nil => intro m; exact ⟨rfl, rfl⟩
  | cons tok ts ih =>
    intro m
    rw [emuParseArgTokens]
    by_cases htok : tok.contains '='
    · rw [if_pos htok]; exact ih _
    · rw [if_neg htok]; exact ih _

/-! ## Claim C3: unknown verbs -/

/-- Counterexample for claim C6: in the emulator's parser the token
`12-ab` does not end with `-`, so by the claim it should be classified as a
verb; the regex `^(\d+)-` prefix-matches it and it is classified as the
response code 12 with no verb. -/
theorem C6_counterexample :
    emuParse "12-ab".data = some (EmuCmd.mk none 12 [] []) ∧
    endsWithDash "12-ab".data = false := by decide

/-- Claim C6 (amended): in `xbdm_common.XBDMCommand.parse` the first token
is treated as a response code whenever it merely ends with `-` (the digits
are not checked; `int` of a non-digit prefix raises instead of falling back
to a verb), a first token containing `=` yields neither verb nor code, and
only the remaining first tokens become verbs; in
`emulator.XBDMCommand.parse` the first token is a response code whenever it
starts with digits followed by `-`, whether or not it ends with `-`, and is
a verb otherwise. -/
theorem C6_first_token_classification :
    (∀ (t : Str) (ts : List Str) (m : CommonCmd), parseTokens (t :: ts) = some m →
      (endsWithDash t = true → m.name = none) ∧
      (endsWithDash t = false → m.code = 0) ∧
      (endsWithDash t = false → t.contains '=' = false → m.name = some t)) ∧
    (∀ (t : Str) (ts : List Str) (m : EmuCmd), emuParseTokens (t :: ts) = some m →
      (∀ c, codeExpMatch t = some c → m.name = none ∧ m.code = c) ∧
      (codeExpMatch t = none → m.name = some t ∧ m.code = 0)) := by
  constructor
  · intro t ts m h
    rw [parseTokens] at h
    by_cases hdash : endsWithDash t
    · rw [if_pos hdash] at h
      cases hc : pyInt? t.dropLast with
      | none => rw [hc] at h; simp at h
      | some c =>
        rw [hc] at h
        simp only [Option.some_bind] at h
        have hpres := parseArgTokens_head _ _ _ h
        refine ⟨fun _ => hpres.1, fun hf => ?_, fun hf _ => ?_⟩
        · simp [hdash] at hf
        · simp [hdash] at hf
    · rw [if_neg hdash] at h
      rw [Bool.not_eq_true] at hdash
      by_cases heq : t.contains '='
      · rw [if_pos heq] at h
        have hpres := parseArgTokens_head _ _ _ h
        refine ⟨fun hf => ?_, fun _ => hpres.2, fun _ hf => ?_⟩
        · simp [hdash] at hf
        · rw [heq] at hf
          exact Bool.noConfusion hf
      · rw [if_neg heq] at h
        have hpres := parseArgTokens_head _ _ _ h
        refine ⟨fun hf => ?_, fun _ => hpres.2, fun _ _ => hpres.1⟩
        simp [hdash] at hf
  · intro t ts m h
    rw [emuParseTokens] at h
    cases hc : codeExpMatch t with
    | none =>
      rw [hc] at h
      cases h
      have hpres := emuParseArgTokens_head ts (EmuCmd.mk (some t) 0 [] [])
      refine ⟨fun c hcc => ?_, fun _ => hpres⟩
      exact Option.noConfusion hcc
    | some c =>
      rw [hc] at h
      cases h
      have hpres := emuParseArgTokens_head ts (EmuCmd.mk none (c : Int) [] [])
      refine ⟨fun c' hcc => ?_, fun hcc => ?_⟩
      · rw [Option.some.injEq] at hcc
        subst hcc
        exact ⟨hpres.1, by rw [hpres.2]⟩
      · exact Option.noConfusion hcc

/-- Witness for the amended C6 at the concrete tokens `200-` (a response)
and `systime` (a verb) for the common parser, and `12-ab` for the
emulator parser. -/
theorem C6_first_token_classification_witness :
    ((endsWithDash "200-".data = true → (CommonCmd.mk none 200 [] []).name = none) ∧
     (endsWithDash "200-".data = false → (CommonCmd.mk none 200 [] []).code = 0) ∧
     (endsWithDash "200-".data = false → ("200-".data).contains '=' = false →
       (CommonCmd.mk none 200 [] []).name = some "200-".data)) ∧
    ((∀ c, codeExpMatch "12-ab".data = some c →
       (EmuCmd.mk none 12 [] []).name = none ∧ (EmuCmd.mk none 12 [] []).code = c) ∧
     (codeExpMatch "12-ab".data = none →
       (EmuCmd.mk none 12 [] []).name = some "12-ab".data ∧
       (EmuCmd.mk none 12 [] []).code = 0)) :=
  ⟨C6_first_token_classification.1 "200-".data [] (CommonCmd.mk none 200 [] [])
      (by decide),
   C6_first_token_classification.2 "12-ab".data [] (EmuCmd.mk none 12 [] [])
      (by decide)⟩

/-! ## Claim C8: exactly one of verb and status code -/

/-- Counterexample for claim C8: parsing the wire line `key=value` produces
a message with neither a verb nor a status code (the "multiline string"
branch of `parse` leaves both unset), so "exactly one of {verb, status} is
present" fails. -/
theorem C8_counterexample :
    XBDMCommand_parse "key=value".data =
      some (CommonCmd.mk none 0
        [("key".data, PyVal.str "value".data, .QUOTED_STRING)] []) ∧
    (CommonCmd.mk none 0
        [("key".data, PyVal.str "value".data, .QUOTED_STRING)] []).name = none ∧
    (CommonCmd.mk none 0
        [("key".data, PyVal.str "value".data, .QUOTED_STRING)] []).code = 0 := by
  decide

/-- Claim C8 (amended): every parsed message carries at most one of {verb,
nonzero status code} - never both; a parsed message with neither arises
exactly from a first token that contains `=` without ending in `-` (the
multiline-string branch) or from a response-code token whose numeric prefix
is 0. -/
theorem C8_at_most_one_of_verb_code (s : Str) (m : CommonCmd)
    (h : XBDMCommand_parse s = some m) :
    ¬(m.name ≠ none ∧ m.code ≠ 0) ∧
    (m.name = none ∧ m.code = 0 →
      ∃ t ts, lexTokens commonQuotes s = some (t :: ts) ∧
        ((endsWithDash t = false ∧ t.contains '=' = true) ∨
         (endsWithDash t = true ∧ pyInt? t.dropLast = some 0))) := by
  unfold XBDMCommand_parse at h
  cases hlex : lexTokens commonQuotes s with
  | none => rw [hlex] at h; simp at h
  | some parts =>
    rw [hlex] at h
    simp only [Option.some_bind] at h
    cases parts with
    | nil => rw [parseTokens] at h; exact Option.noConfusion h
    | cons t ts =>
      rw [parseTokens] at h
      by_cases hdash : endsWithDash t
      · rw [if_pos hdash] at h
        cases hc : pyInt? t.dropLast with
        | none => rw [hc] at h; simp at h
        | some c =>
          rw [hc] at h
          simp only [Option.some_bind] at h
          have hpres := parseArgTokens_head _ _ _ h
          constructor
          · intro hcon
            exact hcon.1 hpres.1
          · intro hzero
            refine ⟨t, ts, rfl, Or.inr ⟨hdash, ?_⟩⟩
            have hcode : m.code = c := hpres.2
            rw [hzero.2] at hcode
            rw [hc, ← hcode]
      · rw [if_neg hdash] at h
        rw [Bool.not_eq_true] at hdash
        by_cases heq : t.contains '='
        · rw [if_pos heq] at h
          have hpres := parseArgTokens_head _ _ _ h
          constructor
          · intro hcon
            exact hcon.1 hpres.1
          · intro _
            exact ⟨t, ts, rfl, Or.inl ⟨hdash, heq⟩⟩
        · rw [if_neg heq] at h
          have hpres := parseArgTokens_head _ _ _ h
          constructor
          · intro hcon
            exact hcon.2 hpres.2
          · intro hzero
            have hname : m.name = some t := hpres.1
            exact Option.noConfusion (hname.symm.trans hzero.1)

/-- Witness for the amended C8 on the concrete line `getmem x=1`. -/
theorem C8_at_most_one_of_verb_code_witness :
    XBDMCommand_parse "getmem x=1".data =
      some (CommonCmd.mk (some "getmem".data) 0 [("x".data, PyVal.int 1, .INTEGER)] []) ∧
    ¬((CommonCmd.mk (some "getmem".data) 0 [("x".data, PyVal.int 1, .INTEGER)] []).name ≠ none ∧
      (CommonCmd.mk (some "getmem".data) 0 [("x".data, PyVal.int 1, .INTEGER)] []).code ≠ 0) :=
  ⟨by decide,
    (C8_at_most_one_of_verb_code "getmem x=1".data
      (CommonCmd.mk (some "getmem".data) 0 [("x".data, PyVal.int 1, .INTEGER)] [])
      (by decide)).1⟩

/-! ## Claim C9: the `systime` reply -/

/-- Claim C9: the `systime` handler computes `t` as the whole number of
seconds between 0001-01-01 23:00:00 UTC and now (the `datetime`
subtraction enters as the abstract `secs` parameter) multiplied by 10^7,
splits `t` into its 32-bit halves, and emits a single `200` reply carrying
the high half under key `high` and the low half under key `low`, each as a
`0x`-prefixed hex parameter. -/
theorem C9_systime_reply (secs : Nat) (h : secs * 10000000 < 2 ^ 64) :
    system_time secs = secs * 10000000 ∧
    systimeReply secs =
      some ("200- high=0x".data ++ hexDigitsLower 8 (secs * 10000000 / 2 ^ 32) ++
        " low=0x".data ++ hexDigitsLower 8 (secs * 10000000 % 2 ^ 32) ++
        "\r\n".data) := by
  refine ⟨rfl, ?_⟩
  unfold systimeReply
  rw [show system_time secs = secs * 10000000 from rfl]
  unfold uint64_to_uint32_hex
  rw [if_pos h]
  simp only [Option.map_some']
  congr 1
  unfold emuGetOutput emuSetParam emuAssocSet
  have e1 : "high".data.map Char.toLower = "high".data := rfl
  have e2 : "low".data.map Char.toLower = "low".data := rfl
  rw [e1, e2]
  simp only [List.any_nil, List.any_cons, Bool.or_false, joinSpace, List.map_cons,
    List.map_nil, List.flatten]
  norm_num
  have e4 : pyIntToStr 200 = "200".data := rfl
  rw [e4]
  simp [List.append_assoc]

/-- Witness for C9 at 3 whole seconds past the baseline. -/
theorem C9_systime_reply_witness :
    3 * 10000000 < 2 ^ 64 ∧
    (system_time 3 = 3 * 10000000 ∧
     systimeReply 3 =
      some ("200- high=0x".data ++ hexDigitsLower 8 (3 * 10000000 / 2 ^ 32) ++
        " low=0x".data ++ hexDigitsLower 8 (3 * 10000000 % 2 ^ 32) ++
        "\r\n".data)) :=
  ⟨by decide, C9_systime_reply 3 (by decide)⟩

/-! ## Claim C7: the CRC-32 helper -/

theorem shiftRight_one_xor (a b : Nat) : (a ^^^ b) >>> 1 = a >>> 1 ^^^ b >>> 1 := by
  apply Nat.eq_of_testBit_eq
  intro i
  simp [Nat.testBit_shiftRight, Nat.testBit_xor]

theorem and_one_xor (a b : Nat) : (a ^^^ b) &&& 1 = (a &&& 1) ^^^ (b &&& 1) := by
  apply Nat.eq_of_testBit_eq
  intro i
  simp only [Nat.testBit_and, Nat.testBit_xor]
  cases i with
  | zero => simp
  | succ i =>
    have h1 : Nat.testBit 1 (i + 1) = false := by
      simp [Nat.testBit_succ]
    simp [h1]

theorem shiftLeft_succ_and_one (hi k : Nat) : (hi <<< (k + 1)) &&& 1 = 0 := by
  have h : hi <<< (k + 1) = hi <<< k * 2 := by
    rw [Nat.shiftLeft_succ]
    omega
  rw [h]
  apply Nat.eq_of_testBit_eq
  intro i
  cases i with
  | zero => simp [Nat.testBit_and, Nat.mul_comm]
  | succ i =>
    have h1 : Nat.testBit 1 (i + 1) = false := by simp [Nat.testBit_succ]
    simp [Nat.testBit_and, h1]

theorem shiftLeft_succ_shiftRight (hi k : Nat) : (hi <<< (k + 1)) >>> 1 = hi <<< k := by
  rw [Nat.shiftLeft_succ, Nat.shiftRight_succ, Nat.shiftRight_zero]
  omega

theorem crc32RefBit_shifted (y hi : Nat) (k : Nat) :
    crc32RefBit (y ^^^ (hi <<< (k + 1))) = crc32RefBit y ^^^ (hi <<< k) := by
  unfold crc32RefBit
  have hland : (y ^^^ hi <<< (k + 1)) &&& 1 = y &&& 1 := by
    rw [and_one_xor, shiftLeft_succ_and_one, Nat.xor_zero]
  rw [hland]
  by_cases hbit : y &&& 1 = 1
  · rw [if_pos hbit, if_pos hbit]
    rw [shiftRight_one_xor, shiftLeft_succ_shiftRight]
    rw [Nat.xor_assoc, Nat.xor_assoc]
    congr 1
    rw [Nat.xor_comm]
  · rw [if_neg hbit, if_neg hbit]
    rw [shiftRight_one_xor, shiftLeft_succ_shiftRight]

theorem crc32RefBit_iter_shifted (k : Nat) : ∀ y hi,
    crc32RefBit^[k] (y ^^^ (hi <<< k)) = crc32RefBit^[k] y ^^^ hi := by
  induction k with
  | zero => intro y hi; simp
  | succ k ih =>
    intro y hi
    rw [Function.iterate_succ_apply, Function.iterate_succ_apply]
    rw [crc32RefBit_shifted y hi k, ih]

theorem shiftRight_xor_distrib (a b k : Nat) :
    (a ^^^ b) >>> k = a >>> k ^^^ b >>> k := by
  apply Nat.eq_of_testBit_eq
  intro i
  simp [Nat.testBit_shiftRight, Nat.testBit_xor]

theorem nat_split_low_high (x : Nat) :
    x = (x &&& 255) ^^^ ((x >>> 8) <<< 8) := by
  apply Nat.eq_of_testBit_eq
  intro i
  simp only [Nat.testBit_xor, Nat.testBit_and, Nat.testBit_shiftLeft,
    Nat.testBit_shiftRight]
  by_cases hi8 : i < 8
  · have h255 : Nat.testBit 255 i = true := by
      interval_cases i <;> decide
    have hge : (decide (8 ≤ i)) = false := by simp; omega
    simp [h255, hge]
  · have h255 : Nat.testBit 255 i = false := by
      have : (255 : Nat) < 2 ^ i := by
        calc (255 : Nat) < 2 ^ 8 := by norm_num
        _ ≤ 2 ^ i := Nat.pow_le_pow_right (by omega) (by omega)
      exact Nat.testBit_lt_two_pow this
    have hge : (decide (8 ≤ i)) = true := by simp; omega
    simp [h255, hge]
    congr 1
    omega

set_option maxRecDepth 40000 in
theorem crcTableEntry_eq_refBits : ∀ b < 256, crcTableEntry b = crc32RefBit^[8] b := by
  decide

theorem crcTable_getD (i : Nat) (h : i < 256) :
    crcTable.getD i 0 = crcTableEntry i := by
  unfold crcTable
  rw [List.getD_eq_getElem?_getD, List.getElem?_map, List.getElem?_range h]
  rfl

theorem crcProcessByte_eq_refByte (v b : Nat) (hb : b < 256) :
    crcProcessByte v b = crc32RefByte v b := by
  unfold crcProcessByte crc32RefByte
  have hidx : (b ^^^ v) &&& 255 < 256 := by
    have := Nat.and_lt_two_pow (b ^^^ v) (show (255 : Nat) < 2 ^ 8 by norm_num)
    simpa using this
  rw [crcTable_getD _ hidx, crcTableEntry_eq_refBits _ hidx]
  have hsplit : v ^^^ b = ((b ^^^ v) &&& 255) ^^^ (((v ^^^ b) >>> 8) <<< 8) := by
    conv_lhs => rw [nat_split_low_high (v ^^^ b)]
    rw [Nat.xor_comm b v]
  rw [hsplit, crc32RefBit_iter_shifted]
  congr 1
  rw [shiftRight_xor_distrib]
  have hb8 : b >>> 8 = 0 := by
    rw [Nat.shiftRight_eq_div_pow]
    omega
  rw [hb8, Nat.xor_zero]

theorem crc32RefBit_lt (c : Nat) (h : c < 2 ^ 32) : crc32RefBit c < 2 ^ 32 := by
  unfold crc32RefBit
  have hshift : c >>> 1 < 2 ^ 32 := by
    rw [Nat.shiftRight_eq_div_pow]
    omega
  by_cases hbit : c &&& 1 = 1
  · rw [if_pos hbit]
    exact Nat.xor_lt_two_pow hshift (by norm_num [crcPoly])
  · rw [if_neg hbit]
    exact hshift

theorem crc32RefByte_lt (c b : Nat) (hc : c < 2 ^ 32) (hb : b < 256) :
    crc32RefByte c b < 2 ^ 32 := by
  unfold crc32RefByte
  have hx : c ^^^ b < 2 ^ 32 := Nat.xor_lt_two_pow hc (by omega)
  clear hc hb
  induction 8 with
  | zero => exact hx
  | succ k ih =>
    rw [Function.iterate_succ_apply']
    exact crc32RefBit_lt _ ih

/-- Claim C7: the CRC helper's one-shot result on any byte sequence equals
the standard reflected (LSB-first) CRC-32 with initial value `0xFFFFFFFF`
and polynomial `0xEDB88320` and no final XOR. -/
theorem C7_crc32_oneshot_eq_ref (data : List Nat) (hb : ∀ b ∈ data, b < 256) :
    crcProcessOneShot data = crc32Ref data := by
  unfold crcProcessOneShot crc32Ref
  have main : ∀ (l : List Nat) (acc : Nat), (∀ b ∈ l, b < 256) → acc < 2 ^ 32 →
      l.foldl crcProcessByte acc = l.foldl crc32RefByte acc ∧
      l.foldl crc32RefByte acc < 2 ^ 32 := by
    intro l
    induction l with
    | nil => intro acc _ hacc; exact ⟨rfl, hacc⟩
    | cons b t ih =>
      intro acc hl hacc
      have hbb : b < 256 := hl b (by simp)
      have hstep := crcProcessByte_eq_refByte acc b hbb
      have hlt := crc32RefByte_lt acc b hacc hbb
      have ht := ih (crc32RefByte acc b) (fun x hx => hl x (by simp [hx])) hlt
      simp only [List.foldl_cons]
      rw [hstep]
      exact ht
  have h := main data 0xFFFFFFFF hb (by norm_num)
  rw [h.1]
  exact Nat.and_pow_two_sub_one_of_lt_two_pow (n := 32) h.2

/-- Witness for C7 on the concrete byte sequence `[1, 2, 3]`. -/
theorem C7_crc32_oneshot_eq_ref_witness :
    (∀ b ∈ [1, 2, 3], b < 256) ∧ crcProcessOneShot [1, 2, 3] = crc32Ref [1, 2, 3] :=
  ⟨by decide, C7_crc32_oneshot_eq_ref [1, 2, 3] (by decide)⟩

/-! ## Claim C5: single-file receive termination -/

/-- Claim C5: in single-file receive mode, when the remaining-bytes counter
reaches exactly 0 the session closes the file sink (persisting the
accumulated bytes), emits the terminator reply - `200- OK` for an xbupdate
transfer, or `203- binary response follows` followed by 4 NUL bytes for a
plain `SENDFILE` transfer - and returns to Command state. -/
theorem C5_single_receive_terminator (st : SrvState) (data : List Nat)
    (hrf : st.receiving_file = true) (hrs : st.receiving_files = false)
    (hlen : st.file_data_left = (data.length : Int))
    (hne : data ≠ []) (hmag : data ≠ magicBytes) :
    ∃ st' outs, feed st data = some (st', outs) ∧
      st'.receiving_file = false ∧ st'.receiving_files = false ∧
      st'.file_handle = none ∧ st'.receiving_type = .NONE ∧
      st'.closed_log = st.closed_log ++
        [(st.file_path, st.file_handle.getD [] ++ data)] ∧
      (st.receiving_type = .XBUPDATE_SINGLE → outs = [Out.line "200- OK"]) ∧
      (st.receiving_type = .SENDFILE_SINGLE →
        outs = [Out.line "203- binary response follows",
                Out.raw (List.replicate 4 0)]) := by
  unfold feed
  rw [feedAux]
  rw [if_neg hne]
  rw [if_neg (by simp [hrf])]
  rw [if_neg hmag]
  rw [if_pos hrf]
  have hzero : st.file_data_left - (data.length : Int) = 0 := by omega
  simp only [hzero, if_pos rfl]
  refine ⟨_, _, rfl, rfl, hrs, rfl, rfl, rfl, ?_, ?_⟩
  · intro ht; rw [ht]
  · intro ht; rw [ht]

/-- Witness for C5: a plain `SENDFILE` session with 3 bytes outstanding
receives exactly 3 bytes. -/
theorem C5_single_receive_terminator_witness :
    (SrvState.mk true false 0 0 3 .SENDFILE_SINGLE 0 [7] (some [9]) []).receiving_file
        = true ∧
    (∃ st' outs,
      feed (SrvState.mk true false 0 0 3 .SENDFILE_SINGLE 0 [7] (some [9]) [])
        [1, 2, 3] = some (st', outs) ∧
      st'.receiving_file = false ∧ st'.receiving_files = false ∧
      st'.file_handle = none ∧ st'.receiving_type = .NONE ∧
      st'.closed_log = [([7], [9, 1, 2, 3])] ∧
      (ReceiveFileType.SENDFILE_SINGLE = ReceiveFileType.XBUPDATE_SINGLE →
        outs = [Out.line "200- OK"]) ∧
      (ReceiveFileType.SENDFILE_SINGLE = ReceiveFileType.SENDFILE_SINGLE →
        outs = [Out.line "203- binary response follows",
                Out.raw (List.replicate 4 0)])) :=
  ⟨rfl, C5_single_receive_terminator
    (SrvState.mk true false 0 0 3 .SENDFILE_SINGLE 0 [7] (some [9]) [])
    [1, 2, 3] rfl rfl (by decide) (by decide) (by decide)⟩

/-! ## Claim C2: the multi-file receive run -/

theorem feedAux_fuel : ∀ (f1 : Nat), ∀ (f2 : Nat) (st : SrvState) (data : List Nat),
    data.length < f1 → data.length < f2 →
    feedAux f1 st data = feedAux f2 st data := by
  intro f1
  induction f1 with
  | zero => intro f2 st data h1 _; omega
  | succ g1 ih =>
    intro f2 st data h1 h2
    match f2, h2 with
    | g2 + 1, h2 =>
      rw [feedAux]
      conv_rhs => rw [feedAux]
      by_cases hemp : data = []
      · simp [hemp]
      · rw [if_neg hemp, if_neg hemp]
        split
        · rfl
        · split
          · rfl
          · split
            · rfl
            · split
              · split
                · rfl
                · split
                  · rename_i hguard
                    dsimp only
                    split
                    · rename_i hlt
                      apply ih
                      · have hpos : 0 < st.file_data_left.toNat := by
                          have := hguard.2.2
                          omega
                        have hnz : data.length ≠ 0 := by
                          intro hz
                          exact hemp (List.eq_nil_of_length_eq_zero hz)
                        simp only [List.length_drop]
                        omega
                      · have hpos : 0 < st.file_data_left.toNat := by
                          have := hguard.2.2
                          omega
                        have hnz : data.length ≠ 0 := by
                          intro hz
                          exact hemp (List.eq_nil_of_length_eq_zero hz)
                        simp only [List.length_drop]
                        omega
                    · rfl
                  · rfl
              · rfl

theorem feed_unfold (st : SrvState) (data : List Nat) :
    feed st data = feedAux (data.length + 1) st data := rfl

theorem multiBottom_skip (st : SrvState) (h1 : st.file_data_left ≠ 0)
    (h2 : st.num_files_left ≠ 0) : multiBottom st = some (st, []) := by
  unfold multiBottom
  rw [if_neg h1]
  simp only [Option.some_bind, Option.bind_eq_bind]
  rw [if_neg h2]
  rfl

theorem be32_length (n : Nat) : (be32 n).length = 4 := rfl

theorem be32val_be32 {n : Nat} (h : n < 2 ^ 32) : be32val (be32 n) = n := by
  simp only [be32, be32val]
  omega

theorem take_len_append (xs ys : List Nat) (n : Nat) (h : xs.length = n) :
    (xs ++ ys).take n = xs := by
  subst h
  exact List.take_left xs ys

theorem drop_len_append (xs ys : List Nat) (n : Nat) (h : xs.length = n) :
    (xs ++ ys).drop n = ys := by
  subst h
  exact List.drop_left xs ys

theorem parseMultiHeader_generic (m16 : List Nat) (hm16 : m16.length = 16)
    (sHi sLo attrs : Nat) (hsHi : sHi < 2 ^ 32) (hsLo : sLo < 2 ^ 32)
    (path p0 : List Nat) (hpl : 33 + path.length < 2 ^ 32) :
    parseMultiHeader (be32 (33 + path.length) ++
        ((m16 ++ (be32 sHi ++ (be32 sLo ++ (be32 attrs ++ (path ++ [0]))))) ++ p0)) =
      some (sLo + sHi * 2 ^ 32, path, p0) := by
  set inner : List Nat := m16 ++ (be32 sHi ++ (be32 sLo ++ (be32 attrs ++ (path ++ [0]))))
    with hinner
  have hinlen : inner.length = 29 + path.length := by
    simp [hinner, be32_length, List.length_append, hm16]
    omega
  unfold parseMultiHeader
  have hlen4 : ¬((be32 (33 + path.length) ++ (inner ++ p0)).length < 4) := by
    simp [be32_length, List.length_append]
  rw [if_neg hlen4]
  rw [take_len_append _ _ 4 (be32_length _), drop_len_append _ _ 4 (be32_length _)]
  rw [be32val_be32 hpl]
  dsimp only
  rw [if_pos (by omega : 4 ≤ 33 + path.length)]
  have htake : (inner ++ p0).take (33 + path.length - 4) = inner := by
    apply take_len_append
    omega
  rw [htake]
  rw [if_neg (by omega : ¬(inner.length < 28))]
  have hd16 : inner.drop 16 = be32 sHi ++ (be32 sLo ++ (be32 attrs ++ (path ++ [0]))) := by
    rw [hinner]
    exact drop_len_append _ _ 16 hm16
  have hd20 : inner.drop 20 = be32 sLo ++ (be32 attrs ++ (path ++ [0])) := by
    have hre : inner = (m16 ++ be32 sHi) ++ (be32 sLo ++ (be32 attrs ++ (path ++ [0]))) := by
      simp [hinner, List.append_assoc]
    rw [hre]
    apply drop_len_append
    simp [be32_length, hm16]
  have hd28 : inner.drop 28 = path ++ [0] := by
    have hre : inner = ((m16 ++ be32 sHi) ++ (be32 sLo ++ be32 attrs)) ++ (path ++ [0]) := by
      simp [hinner, List.append_assoc]
    rw [hre]
    apply drop_len_append
    simp [be32_length, hm16]
  rw [hd16, hd20, hd28]
  rw [take_len_append _ _ 4 (be32_length _), take_len_append _ _ 4 (be32_length _)]
  rw [be32val_be32 hsHi, be32val_be32 hsLo]
  have hdlast : (path ++ [0]).dropLast = path := by
    simp
  rw [hdlast]
  have hdroprest : (inner ++ p0).drop inner.length = p0 := drop_len_append _ _ _ rfl
  rw [hdroprest]

theorem parseMultiHeader_mkHeader (f : FileRec) (p0 : List Nat) (hwf : WfFile f) :
    parseMultiHeader (mkHeaderBytes f ++ p0) =
      some (f.body.length, f.path, p0) := by
  obtain ⟨hbody, hpath⟩ := hwf
  have hform : mkHeaderBytes f ++ p0 =
      be32 (33 + f.path.length) ++
        (((be32 f.createHi ++ (be32 f.createLo ++ (be32 f.modifyHi ++ be32 f.modifyLo))) ++
          (be32 (f.body.length / 2 ^ 32) ++ (be32 (f.body.length % 2 ^ 32) ++
            (be32 f.attrs ++ (f.path ++ [0]))))) ++ p0) := by
    simp [mkHeaderBytes, List.append_assoc]
  rw [hform]
  rw [parseMultiHeader_generic _ (by simp [be32_length, List.length_append]) _ _ _
    (by omega) (by omega) _ _ (by omega)]
  congr 2
  omega

theorem feed_multi_entry (st : SrvState) (data : List Nat)
    (hne : data ≠ []) (hmag : data ≠ magicBytes)
    (hrf : st.receiving_file = false) (hrs : st.receiving_files = true) :
    feed st data =
      if st.num_files_left > 0 ∧ st.file_handle = none ∧ st.file_data_left = 0 then
        match parseMultiHeader data with
        | none => none
        | some fpr =>
          multiBottom { st with
                        file_path := fpr.2.1, file_handle := some fpr.2.2,
                        file_data_left := (fpr.1 : Int) - fpr.2.2.length }
      else if st.num_files_left > 0 ∧ st.file_handle ≠ none ∧ st.file_data_left > 0 then
        if st.file_data_left < data.length then
          feed { st with
                 closed_log := st.closed_log ++ [(st.file_path, st.file_handle.getD [] ++ data.take st.file_data_left.toNat)],
                 file_handle := none,
                 num_files_left := st.num_files_left - 1,
                 file_path := [], file_data_left := 0 }
            (data.drop st.file_data_left.toNat)
        else
          multiBottom { st with
                        file_handle := some (st.file_handle.getD [] ++ data),
                        file_data_left := st.file_data_left - data.length }
      else multiBottom st := by
  unfold feed
  rw [feedAux]
  rw [if_neg hne]
  rw [if_neg (by simp [hrs])]
  rw [if_neg hmag]
  rw [if_neg (by simp [hrf])]
  rw [if_pos hrs]
  split
  · rfl
  · split
    · rename_i hng hguard
      dsimp only
      split
      · rename_i hlt
        apply feedAux_fuel
        · have hpos : 0 < st.file_data_left.toNat := by
            have := hguard.2.2
            omega
          have hnz : data.length ≠ 0 := by
            intro hz
            exact hne (List.eq_nil_of_length_eq_zero hz)
          simp only [List.length_drop]
          omega
        · simp only [List.length_drop]
          omega
      · rfl
    · rfl

theorem mkHeaderBytes_length (f : FileRec) :
    (mkHeaderBytes f).length = 33 + f.path.length := by
  simp [mkHeaderBytes, be32_length, List.length_append]
  omega

theorem feedAll_cons_nilout {st st1 : SrvState} {p : List Nat} {L : List (List Nat)}
    (h : feed st p = some (st1, [])) :
    feedAll st (p :: L) = feedAll st1 L := by
  rw [feedAll, h]
  simp only [Option.some_bind]
  cases hall : feedAll st1 L with
  | none => rfl
  | some q => simp

theorem feedAll_cons_step {st st2 : SrvState} {p : List Nat} {L : List (List Nat)}
    (h : feed st p = feed st2 (p.drop k)) :
    feedAll st (p :: L) = feedAll st2 (p.drop k :: L) := by
  rw [feedAll, feedAll, h]

theorem multiBottom_close_more (st : SrvState) (buf : List Nat)
    (hh : st.file_handle = some buf) (hd : st.file_data_left = 0)
    (hnum : st.num_files_left - 1 ≠ 0) :
    multiBottom st = some ({ st with
      file_handle := none, num_files_left := st.num_files_left - 1,
      file_data_left := 0, file_path := [],
      closed_log := st.closed_log ++ [(st.file_path, buf)] }, []) := by
  unfold multiBottom
  rw [if_pos hd, hh]
  simp only [Option.some_bind, Option.bind_eq_bind]
  rw [if_neg hnum]
  rfl

theorem multiBottom_close_last (st : SrvState) (buf : List Nat)
    (hh : st.file_handle = some buf) (hd : st.file_data_left = 0)
    (hnum : st.num_files_left = 1) :
    multiBottom st = some ({ st with
      file_handle := none, num_files_left := 0,
      file_data_left := 0, file_path := [],
      closed_log := st.closed_log ++ [(st.file_path, buf)],
      num_files_total := 0, receiving_files := false },
      [Out.line "203- binary response follows",
       Out.raw (List.replicate (4 * st.num_files_total) 0)]) := by
  unfold multiBottom
  rw [if_pos hd, hh]
  simp only [Option.some_bind, Option.bind_eq_bind]
  rw [if_pos (by rw [hnum]; omega)]
  simp [hnum]

theorem bodyPiecesRun : ∀ (mids : List (List Nat)) (st : SrvState) (buf : List Nat)
    (extra : Nat) (rest : List (List Nat)),
    (∀ p ∈ mids, p ≠ []) → (∀ p ∈ mids, p ≠ magicBytes) →
    st.receiving_file = false → st.receiving_files = true →
    st.file_handle = some buf →
    st.file_data_left = ((mids.flatten.length + extra : Nat) : Int) →
    0 < extra → 0 < st.num_files_left →
    feedAll st (mids ++ rest) =
      feedAll { st with
                file_handle := some (buf ++ mids.flatten),
                file_data_left := (extra : Int) } rest := by
  intro mids
  induction mids with
  | nil =>
    intro st buf extra rest _ _ _ _ hh hd _ _
    have hst : { st with
        file_handle := some (buf ++ List.flatten []),
        file_data_left := ((extra : Nat) : Int) } = st := by
      cases st
      simp_all
    rw [hst]
    rfl
  | cons p ps ih =>
    intro st buf extra rest hne hmag hrf hrs hh hd hex hnum
    have hpne : p ≠ [] := hne p (by simp)
    have hplen : 0 < p.length := List.length_pos.mpr hpne
    have hstep : feed st p = some ({ st with
        file_handle := some (buf ++ p),
        file_data_left := st.file_data_left - p.length }, []) := by
      rw [feed_multi_entry st p hpne (hmag p (by simp)) hrf hrs]
      rw [if_neg (by simp [hh])]
      have hflat : st.file_data_left =
          ((p.length + (ps.flatten.length + extra) : Nat) : Int) := by
        rw [hd]
        simp [List.flatten_cons, List.length_append]
        omega
      rw [if_pos ⟨hnum, by simp [hh], by omega⟩]
      rw [if_neg (by omega)]
      rw [hh]
      apply multiBottom_skip
      · simp only []
        omega
      · simp only []
        omega
    rw [show ((p :: ps) ++ rest) = p :: (ps ++ rest) from rfl]
    rw [feedAll_cons_nilout hstep]
    have hd1 : ({ st with
        file_handle := some (buf ++ p),
        file_data_left := st.file_data_left - p.length } : SrvState).file_data_left =
        ((ps.flatten.length + extra : Nat) : Int) := by
      show st.file_data_left - (p.length : Int) = _
      rw [hd]
      simp only [List.flatten_cons, List.length_append]
      push_cast
      ring
    have happ := ih ({ st with
        file_handle := some (buf ++ p),
        file_data_left := st.file_data_left - p.length }) (buf ++ p) extra rest
      (fun x hx => hne x (List.mem_cons_of_mem p hx))
      (fun x hx => hmag x (List.mem_cons_of_mem p hx)) hrf hrs rfl hd1 hex hnum
    rw [happ]
    congr 2
    simp [List.append_assoc]

theorem length_ne_magic {r : List Nat} (h : 33 ≤ r.length) : r ≠ magicBytes := by
  intro heq
  rw [heq] at h
  simp [magicBytes] at h

theorem sched_head (fs : List FileRec) (r : List Nat) (rest : List (List Nat))
    (h : Sched fs (r :: rest)) : fs ≠ [] ∧ 33 ≤ r.length := by
  cases fs with
  | nil =>
    rw [Sched] at h
    exact absurd h (by simp)
  | cons g gs =>
    rw [Sched] at h
    obtain ⟨p0, mids, _, hcase⟩ := h
    refine ⟨by simp, ?_⟩
    rcases hcase with ⟨_, rest', hreads, _⟩ | ⟨lastPiece, r', rest', _, _, _, hreads⟩
    · have : r = mkHeaderBytes g ++ p0 := by
        rw [List.cons.injEq] at hreads
        exact hreads.1
      rw [this]
      simp [mkHeaderBytes_length, List.length_append]
      omega
    · have : r = mkHeaderBytes g ++ p0 := by
        rw [List.cons.injEq] at hreads
        exact hreads.1
      rw [this]
      simp [mkHeaderBytes_length, List.length_append]
      omega

theorem sched_flatten : ∀ (files : List FileRec) (reads : List (List Nat)),
    Sched files reads → reads.flatten = (files.map mkChunk).flatten := by
  intro files
  induction files with
  | nil =>
    intro reads h
    rw [Sched] at h
    subst h
    rfl
  | cons f fs ih =>
    intro reads h
    rw [Sched] at h
    obtain ⟨p0, mids, _, hcase⟩ := h
    rcases hcase with ⟨hbody, rest, hreads, hrest⟩ |
        ⟨lastPiece, r, rest, hbody, _, hrest, hreads⟩
    · subst hreads
      rw [List.flatten_cons, List.flatten_append, ih rest hrest]
      rw [List.map_cons, List.flatten_cons, mkChunk, hbody]
      simp [List.append_assoc]
    · subst hreads
      rw [List.flatten_cons, List.flatten_append, List.flatten_cons]
      rw [List.map_cons, List.flatten_cons, mkChunk, hbody]
      have hfl := ih (r :: rest) hrest
      rw [List.flatten_cons] at hfl
      rw [← List.append_assoc, ← hfl]
      simp [List.append_assoc]

theorem multiRun : ∀ (files : List FileRec), ∀ (reads : List (List Nat)) (st : SrvState),
    Sched files reads → files ≠ [] →
    (∀ f ∈ files, WfFile f) → (∀ r ∈ reads, r ≠ magicBytes) →
    st.receiving_file = false → st.receiving_files = true →
    st.file_handle = none → st.file_data_left = 0 →
    st.num_files_left = (files.length : Int) →
    feedAll st reads =
      some ({ st with
              num_files_left := 0, num_files_total := 0,
              receiving_files := false, file_path := [], file_handle := none,
              file_data_left := 0,
              closed_log := st.closed_log ++ files.map (fun f => (f.path, f.body)) },
        [Out.line "203- binary response follows",
         Out.raw (List.replicate (4 * st.num_files_total) 0)]) := by
  intro files
  induction files with
  | nil => intro reads st _ hne; exact absurd rfl hne
  | cons f fs ih =>
    intro reads st hsched hne hwf hmag hrf hrs hh hd hnum
    obtain ⟨rf0, rs0, tot, numl, fdl, rtyp, ck, fp, fh, log⟩ := st
    simp only at hrf hrs hh hd hnum
    subst hrf hrs hh hd hnum
    rw [Sched] at hsched
    obtain ⟨p0, mids, hmidne, hcase⟩ := hsched
    have hwff : WfFile f := hwf f (by simp)
    have hlenf : (f :: fs).length = fs.length + 1 := rfl
    have hr0len : 33 ≤ (mkHeaderBytes f ++ p0).length := by
      simp [mkHeaderBytes_length, List.length_append]
      omega
    have hr0ne : mkHeaderBytes f ++ p0 ≠ [] := by
      intro hz
      rw [hz] at hr0len
      simp at hr0len
    have hhdr : feed (SrvState.mk false true tot ((f :: fs).length : Int) 0 rtyp ck fp none log)
        (mkHeaderBytes f ++ p0) =
        multiBottom (SrvState.mk false true tot ((f :: fs).length : Int)
          ((f.body.length : Int) - p0.length) rtyp ck f.path (some p0) log) := by
      rw [feed_multi_entry _ _ hr0ne (length_ne_magic hr0len) rfl rfl]
      rw [if_pos ⟨by simp [hlenf] <;> omega, rfl, rfl⟩]
      rw [parseMultiHeader_mkHeader f p0 hwff]
    rcases hcase with ⟨hbody, rest, hreads, hrest⟩ |
        ⟨lastPiece, r, rest, hbody, hlastne, hrest, hreads⟩
    · -- aligned delivery of f
      subst hreads
      have hmagmids : ∀ x ∈ mids, x ≠ magicBytes := by
        intro x hx
        exact hmag x (by simp [hx])
      rcases List.eq_nil_or_concat mids with hmids | ⟨ms, q, hmids⟩
      · -- file f arrives entirely with its header
        subst hmids
        simp only [List.flatten_nil, List.append_nil] at hbody
        have hleft0 : ((f.body.length : Int) - p0.length) = 0 := by
          rw [hbody]
          omega
        rw [hleft0] at hhdr
        cases fs with
        | nil =>
          -- last file: the acknowledgement is emitted
          rw [Sched] at hrest
          subst hrest
          rw [multiBottom_close_last _ p0 rfl rfl (by simp)] at hhdr
          simp only [List.nil_append]
          rw [feedAll, hhdr]
          simp only [Option.some_bind, feedAll]
          simp [hbody]
        | cons g gs =>
          rw [multiBottom_close_more _ p0 rfl rfl (by simp <;> omega)] at hhdr
          simp only [List.nil_append]
          rw [feedAll_cons_nilout hhdr]
          rw [ih rest _ hrest (by simp)
            (fun x hx => hwf x (by simp [hx]))
            (fun x hx => hmag x (by simp [hx])) rfl rfl rfl rfl (by simp <;> omega)]
          simp [hbody, List.append_assoc]
      · -- the body continues in later reads and closes at piece q
        rw [List.concat_eq_append] at hmids
        subst hmids
        have hqne : q ≠ [] := hmidne q (by simp)
        have hqlen : 0 < q.length := List.length_pos.mpr hqne
        have hbody' : f.body = p0 ++ (List.flatten ms ++ q) := by
          rw [hbody]
          simp [List.flatten_append]
        have hleft : ((f.body.length : Int) - p0.length) =
            ((ms.flatten.length + q.length : Nat) : Int) := by
          rw [hbody']
          simp only [List.length_append]
          push_cast
          ring
        have hskip1 : ((f.body.length : Int) - p0.length) ≠ 0 := by
          rw [hleft]
          omega
        have hskip2 : (((f :: fs).length : Nat) : Int) ≠ 0 := by
          rw [hlenf]
          omega
        rw [multiBottom_skip _ hskip1 hskip2] at hhdr
        rw [feedAll_cons_nilout hhdr]
        rw [show ((ms ++ [q]) ++ rest) = ms ++ (q :: rest) by simp] at *
        have hmsne : ∀ x ∈ ms, x ≠ [] := by
          intro x hx
          exact hmidne x (by simp [hx])
        have hmsmag : ∀ x ∈ ms, x ≠ magicBytes := by
          intro x hx
          exact hmagmids x (by simp [hx])
        have hnumpos : (0 : Int) < (((f :: fs).length : Nat) : Int) := by
          rw [hlenf]
          omega
        rw [bodyPiecesRun ms _ p0 q.length (q :: rest) hmsne hmsmag rfl rfl rfl
          hleft hqlen hnumpos]
        have hqmag : q ≠ magicBytes := hmagmids q (by simp)
        have hclose : feed (SrvState.mk false true tot ((f :: fs).length : Int)
            (q.length : Int) rtyp ck f.path (some (p0 ++ ms.flatten)) log) q =
            multiBottom (SrvState.mk false true tot ((f :: fs).length : Int)
              0 rtyp ck f.path (some ((p0 ++ ms.flatten) ++ q)) log) := by
          rw [feed_multi_entry _ _ hqne hqmag rfl rfl]
          rw [if_neg (by simp)]
          rw [if_pos ⟨hnumpos, by simp, by show (0 : Int) < q.length; omega⟩]
          rw [if_neg (by show ¬((q.length : Int) < q.length); omega)]
          simp
        have hbuf : (p0 ++ ms.flatten) ++ q = f.body := by
          rw [hbody']
          simp [List.append_assoc]
        cases fs with
        | nil =>
          rw [Sched] at hrest
          subst hrest
          rw [multiBottom_close_last _ _ rfl rfl (by simp)] at hclose
          rw [feedAll, hclose]
          simp only [Option.some_bind, feedAll]
          simp [hbuf]
        | cons g gs =>
          rw [multiBottom_close_more _ _ rfl rfl (by simp <;> omega)] at hclose
          rw [feedAll_cons_nilout hclose]
          rw [ih rest _ hrest (by simp)
            (fun x hx => hwf x (by simp [hx]))
            (fun x hx => hmag x (by simp [hx])) rfl rfl rfl rfl (by simp <;> omega)]
          simp [hbuf, List.append_assoc]
    · -- fused delivery: the last body piece shares a read with the next header
      subst hreads
      obtain ⟨hfsne, hrlen⟩ := sched_head fs r rest hrest
      have hrne : r ≠ [] := by
        intro hz
        rw [hz] at hrlen
        simp at hrlen
      have hlastlen : 0 < lastPiece.length := List.length_pos.mpr hlastne
      have hmagmids : ∀ x ∈ mids, x ≠ magicBytes := by
        intro x hx
        exact hmag x (by simp [hx])
      have hleft : ((f.body.length : Int) - p0.length) =
          ((mids.flatten.length + lastPiece.length : Nat) : Int) := by
        rw [hbody]
        simp only [List.length_append]
        push_cast
        ring
      have hskip1 : ((f.body.length : Int) - p0.length) ≠ 0 := by
        rw [hleft]
        omega
      have hskip2 : (((f :: fs).length : Nat) : Int) ≠ 0 := by
        rw [hlenf]
        omega
      have hnumpos : (0 : Int) < (((f :: fs).length : Nat) : Int) := by
        rw [hlenf]
        omega
      rw [multiBottom_skip _ hskip1 hskip2] at hhdr
      rw [feedAll_cons_nilout hhdr]
      have hmidne' : ∀ x ∈ mids, x ≠ [] := hmidne
      rw [bodyPiecesRun mids _ p0 lastPiece.length ((lastPiece ++ r) :: rest)
        hmidne' hmagmids rfl rfl rfl hleft hlastlen hnumpos]
      have hfusedne : lastPiece ++ r ≠ [] := by
        simp [hlastne]
      have hfusedmag : lastPiece ++ r ≠ magicBytes :=
        hmag (lastPiece ++ r) (by simp)
      have hfrag : feed (SrvState.mk false true tot ((f :: fs).length : Int)
          (lastPiece.length : Int) rtyp ck f.path (some (p0 ++ mids.flatten)) log)
          (lastPiece ++ r) =
          feed (SrvState.mk false true tot ((fs.length : Nat) : Int) 0 rtyp ck []
            none (log ++ [(f.path, f.body)])) r := by
        rw [feed_multi_entry _ _ hfusedne hfusedmag rfl rfl]
        rw [if_neg (by simp)]
        rw [if_pos ⟨hnumpos, by simp, by show (0 : Int) < lastPiece.length; omega⟩]
        have hcond : ((lastPiece.length : Nat) : Int) < ((lastPiece ++ r).length : Nat) := by
          rw [List.length_append]
          push_cast
          omega
        rw [if_pos hcond]
        have htoNat : ((lastPiece.length : Int)).toNat = lastPiece.length := by simp
        simp only [htoNat]
        rw [take_len_append _ _ _ rfl, drop_len_append _ _ _ rfl]
        simp only [Option.getD_some]
        have hbuf : p0 ++ mids.flatten ++ lastPiece = f.body := hbody.symm
        rw [hbuf]
        congr 1
        simp [hlenf] <;> omega
      rw [feedAll_cons_step (k := lastPiece.length) (by
        rw [drop_len_append _ _ _ rfl]
        exact hfrag)]
      rw [drop_len_append _ _ _ rfl]
      rw [ih (r :: rest) _ hrest hfsne
        (fun x hx => hwf x (by simp [hx]))
        (by
          intro x hx
          rcases List.mem_cons.mp hx with hx | hx
          · rw [hx]
            exact length_ne_magic hrlen
          · exact hmag x (by simp [hx]))
        rfl rfl rfl rfl rfl]
      simp [List.append_assoc]

/-- Counterexample for claim C2: the claim's "whenever a delivered read
contains more bytes than remain for the current file" is pierced by the
handshake artefact: in multi-body state with 5 bytes remaining, a 12-byte
read equal to `020405B40103030801010402` is echoed verbatim and nothing is
written to the sink, closed, or decremented - the `elif` for the artefact
sits above the receive branches in `data_received`. -/
theorem C2_counterexample :
    (5 : Int) < (magicBytes.length : Int) ∧
    feed (SrvState.mk false true 2 2 5 .NONE 0 [7] (some [9]) []) magicBytes =
      some (SrvState.mk false true 2 2 5 .NONE 0 [7] (some [9]) [],
        [Out.raw magicBytes]) := by decide

/-- Claim C2 (amended): (a) whenever a delivered read other than the
12-byte handshake artefact contains more bytes than remain for the current
file, the session writes exactly the remaining bytes into the current sink,
closes it, decrements the files-remaining counter, and reprocesses the
leftover tail as the next inbound data; (b) consequently a transfer of `k`
files, delivered so that each file's header arrives whole at the front of a
read or of a re-delivered tail and no read runs past the end of the file
whose header it carries (`Sched`), consumes exactly the sum of all header
sizes plus all declared body sizes before the trailing acknowledgement is
emitted, and every file's sink receives exactly its body. -/
theorem C2_multi_receive_run :
    (∀ (st : SrvState) (data : List Nat) (buf : List Nat),
      st.receiving_file = false → st.receiving_files = true →
      st.file_handle = some buf → 0 < st.file_data_left →
      0 < st.num_files_left → st.file_data_left < data.length →
      data ≠ magicBytes →
      feed st data = feed ({ st with
          closed_log := st.closed_log ++ [(st.file_path, buf ++ data.take st.file_data_left.toNat)],
          file_handle := none,
          num_files_left := st.num_files_left - 1,
          file_path := [], file_data_left := 0 })
        (data.drop st.file_data_left.toNat)) ∧
    (∀ (files : List FileRec) (reads : List (List Nat)),
      Sched files reads → files ≠ [] →
      (∀ f ∈ files, WfFile f) → (∀ r ∈ reads, r ≠ magicBytes) →
      feedAll (multiStart files.length) reads =
        some (SrvState.mk false false 0 0 0 .NONE 0 [] none
            (files.map (fun f => (f.path, f.body))),
          [Out.line "203- binary response follows",
           Out.raw (List.replicate (4 * files.length) 0)]) ∧
      reads.flatten.length =
        (files.map (fun f => (mkHeaderBytes f).length + f.body.length)).sum) := by
  constructor
  · intro st data buf hrf hrs hh hdl hnum hlt hmag
    have hne : data ≠ [] := by
      intro hz
      rw [hz] at hlt
      simp at hlt
      omega
    rw [feed_multi_entry st data hne hmag hrf hrs]
    rw [if_neg (by simp [hh])]
    rw [if_pos ⟨hnum, by simp [hh], hdl⟩]
    rw [if_pos hlt]
    rw [hh]
    simp only [Option.getD_some]
  · intro files reads hsched hne hwf hmag
    constructor
    · rw [multiRun files reads (multiStart files.length) hsched hne hwf hmag
        rfl rfl rfl rfl rfl]
      rfl
    · have hfl := sched_flatten files reads hsched
      rw [hfl]
      have hlen : (files.map mkChunk).flatten.length =
          ((files.map mkChunk).map List.length).sum := by
        exact List.length_flatten _
      rw [hlen, List.map_map]
      congr 1
      apply List.map_congr_left
      intro f _
      simp [mkChunk, List.length_append]

/-- Witness for the amended C2: the two-file transfer `egFile1`, `egFile2`
delivered with a fused read (the last byte of file 1's body shares a read
with file 2's whole header and part of its body). -/
theorem C2_multi_receive_run_witness :
    Sched [egFile1, egFile2]
      [mkHeaderBytes egFile1, [1, 2], [3] ++ mkHeaderBytes egFile2 ++ [4], [5]] ∧
    (feedAll (multiStart 2)
      [mkHeaderBytes egFile1, [1, 2], [3] ++ mkHeaderBytes egFile2 ++ [4], [5]] =
      some (SrvState.mk false false 0 0 0 .NONE 0 [] none
          [([65], [1, 2, 3]), ([66], [4, 5])],
        [Out.line "203- binary response follows",
         Out.raw (List.replicate 8 0)]) ∧
     ([mkHeaderBytes egFile1, [1, 2], [3] ++ mkHeaderBytes egFile2 ++ [4],
       [5]] : List (List Nat)).flatten.length =
      ([egFile1, egFile2].map
        (fun f => (mkHeaderBytes f).length + f.body.length)).sum) := by
  have hs : Sched [egFile1, egFile2]
      [mkHeaderBytes egFile1, [1, 2], [3] ++ mkHeaderBytes egFile2 ++ [4], [5]] := by
    refine ⟨[], [[1, 2]], by decide, Or.inr ⟨[3], mkHeaderBytes egFile2 ++ [4], [[5]],
      by decide, by decide, ?_, by decide⟩⟩
    refine ⟨[4], [[5]], by decide, Or.inl ⟨by decide, [], ?_, ?_⟩⟩
    · decide
    · rfl
  have hwf : ∀ f ∈ [egFile1, egFile2], WfFile f := by
    intro f hf
    simp only [List.mem_cons, List.not_mem_nil, or_false] at hf
    rcases hf with rfl | rfl <;> exact ⟨by decide, by decide⟩
  refine ⟨hs, ?_⟩
  have hrun := (C2_multi_receive_run.2 [egFile1, egFile2]
    [mkHeaderBytes egFile1, [1, 2], [3] ++ mkHeaderBytes egFile2 ++ [4], [5]]
    hs (by decide) hwf (by decide))
  have hstart : multiStart ([egFile1, egFile2].length) = multiStart 2 := rfl
  rw [hstart] at hrun
  exact ⟨hrun.1.trans (by decide), hrun.2.trans (by decide)⟩

/-! ## Toolkit: lexer composition over emitted units -/

theorem lexRun_append (q : List Char) (a b : Str) (st : LexSt) :
    lexRun q (a ++ b) st = lexRun q b (lexRun q a st) := by
  simp [lexRun, List.foldl_append]

theorem lexStep_plain {c : Char} (h : plainChar c = true) (cur : Option Str)
    (acc : List Str) :
    lexStep commonQuotes ⟨none, cur, acc, false⟩ c =
      ⟨none, some (cur.getD [] ++ [c]), acc, false⟩ := by
  unfold plainChar at h
  simp only [Bool.and_eq_true, Bool.not_eq_true', ne_eq, decide_eq_true_eq] at h
  unfold lexStep
  simp [h.1.1, h.1.2, h.2, commonQuotes]

theorem lexStep_openQuote (cur : Option Str) (acc : List Str) :
    lexStep commonQuotes ⟨none, cur, acc, false⟩ '"' =
      ⟨some '"', some (cur.getD []), acc, false⟩ := rfl

theorem lexStep_closeQuote (cur : Option Str) (acc : List Str) :
    lexStep commonQuotes ⟨some '"', cur, acc, false⟩ '"' =
      ⟨none, some (cur.getD []), acc, false⟩ := rfl

theorem lexStep_inQuote {c : Char} (h : ¬c = '"') (cur : Option Str)
    (acc : List Str) :
    lexStep commonQuotes ⟨some '"', cur, acc, false⟩ c =
      ⟨some '"', some (cur.getD [] ++ [c]), acc, false⟩ := by
  unfold lexStep
  simp [h]

theorem lexStep_ws_some {c : Char} (h : isShlexWS c = true) (t : Str)
    (acc : List Str) :
    lexStep commonQuotes ⟨none, some t, acc, false⟩ c =
      ⟨none, none, acc ++ [t], false⟩ := by
  unfold lexStep
  simp [h]

theorem lexStep_ws_none {c : Char} (h : isShlexWS c = true) (acc : List Str) :
    lexStep commonQuotes ⟨none, none, acc, false⟩ c =
      ⟨none, none, acc, false⟩ := by
  unfold lexStep
  simp [h]

theorem lexRun_plain (cs : Str) : cs.all plainChar = true → ∀ (p : Str)
    (acc : List Str),
    lexRun commonQuotes cs ⟨none, some p, acc, false⟩ =
      ⟨none, some (p ++ cs), acc, false⟩ := by
  induction cs with
  | nil => intro _ p acc; simp [lexRun]
  | cons c cs ih =>
    intro h p acc
    simp only [List.all_cons, Bool.and_eq_true] at h
    rw [lexRun, List.foldl_cons, lexStep_plain h.1]
    simp only [Option.getD_some]
    have hrest := ih h.2 (p ++ [c]) acc
    rw [lexRun] at hrest
    rw [hrest]
    simp

theorem lexRun_quoted (cs : Str) : cs.contains '"' = false → ∀ (p : Str)
    (acc : List Str),
    lexRun commonQuotes cs ⟨some '"', some p, acc, false⟩ =
      ⟨some '"', some (p ++ cs), acc, false⟩ := by
  induction cs with
  | nil => intro _ p acc; simp [lexRun]
  | cons c cs ih =>
    intro h p acc
    simp only [List.contains_cons, Bool.or_eq_false_iff, beq_eq_false_iff_ne,
      ne_eq] at h
    rw [lexRun, List.foldl_cons, lexStep_inQuote (fun hc => h.1 hc.symm)]
    simp only [Option.getD_some]
    have hrest := ih h.2 (p ++ [c]) acc
    rw [lexRun] at hrest
    rw [hrest]
    simp

theorem emitU_plain (u : Str) (h : plainTok u = true) : EmitU u u := by
  intro acc
  unfold plainTok at h
  simp only [Bool.and_eq_true, Bool.not_eq_true'] at h
  match u, h with
  | c :: cs, h =>
    simp only [List.all_cons, Bool.and_eq_true] at h
    rw [lexRun, List.foldl_cons, lexStep_plain h.2.1]
    simp only [Option.getD_none, List.nil_append]
    have hrest := lexRun_plain cs h.2.2 [c] acc
    rw [lexRun] at hrest
    rw [hrest]
    simp

theorem emitU_quoted (k s : Str) (hk : plainTok k = true)
    (hs : s.contains '"' = false) :
    EmitU (k ++ '=' :: '"' :: s ++ ['"']) (k ++ '=' :: s) := by
  intro acc
  have hsplit : k ++ '=' :: '"' :: s ++ ['"'] =
      (k ++ ['=']) ++ (('"' :: s) ++ ['"']) := by simp
  rw [hsplit, lexRun_append, lexRun_append]
  have h1 : lexRun commonQuotes (k ++ ['=']) ⟨none, none, acc, false⟩ =
      ⟨none, some (k ++ ['=']), acc, false⟩ := by
    rw [lexRun_append]
    rw [show lexRun commonQuotes k ⟨none, none, acc, false⟩ =
      ⟨none, some k, acc, false⟩ from emitU_plain k hk acc]
    rw [lexRun, List.foldl_cons, lexStep_plain (by decide)]
    rfl
  rw [h1]
  have h2 : lexRun commonQuotes ('"' :: s) ⟨none, some (k ++ ['=']), acc, false⟩ =
      ⟨some '"', some ((k ++ ['=']) ++ s), acc, false⟩ := by
    rw [lexRun, List.foldl_cons, lexStep_openQuote]
    simp only [Option.getD_some]
    have hrest := lexRun_quoted s hs (k ++ ['=']) acc
    rw [lexRun] at hrest
    rw [hrest]
  rw [h2]
  rw [lexRun, List.foldl_cons, lexStep_closeQuote]
  simp [lexRun]

theorem lexRun_tail (ps : List (Str × Str)) :
    (∀ p ∈ ps, EmitU p.1 p.2) → ∀ (t : Str) (acc : List Str),
    lexRun commonQuotes ((ps.map (fun p => ' ' :: p.1)).flatten ++ ['\r', '\n'])
      ⟨none, some t, acc, false⟩ =
      ⟨none, none, acc ++ t :: ps.map (fun p => p.2), false⟩ := by
  induction ps with
  | nil =>
    intro _ t acc
    simp only [List.map_nil, List.flatten_nil, List.nil_append]
    rw [lexRun, List.foldl_cons, lexStep_ws_some (by decide),
      List.foldl_cons, lexStep_ws_none (by decide)]
    simp
  | cons p ps ih =>
    intro hall t acc
    have hsplit : ((p :: ps).map (fun q => ' ' :: q.1)).flatten ++ ['\r', '\n'] =
        (' ' :: p.1) ++ ((ps.map (fun q => ' ' :: q.1)).flatten ++ ['\r', '\n']) := by
      simp
    rw [hsplit, lexRun_append]
    have hinner : lexRun commonQuotes (' ' :: p.1) ⟨none, some t, acc, false⟩ =
        ⟨none, some p.2, acc ++ [t], false⟩ := by
      rw [lexRun, List.foldl_cons, lexStep_ws_some (by decide)]
      exact hall p (List.mem_cons_self _ _) (acc ++ [t])
    rw [hinner, ih (fun q hq => hall q (List.mem_cons_of_mem _ hq)) p.2 (acc ++ [t])]
    simp

theorem lexTokens_line (h : Str) (ps : List (Str × Str)) (hh : plainTok h = true)
    (hps : ∀ p ∈ ps, EmitU p.1 p.2) :
    lexTokens commonQuotes
      (h ++ (ps.map (fun p => ' ' :: p.1)).flatten ++ ['\r', '\n']) =
      some (h :: ps.map (fun p => p.2)) := by
  unfold lexTokens
  rw [List.append_assoc, lexRun_append]
  rw [show lexRun commonQuotes h lexStart = ⟨none, some h, [], false⟩ from
    emitU_plain h hh []]
  rw [lexRun_tail ps hps h []]
  simp

theorem spaceJoin (us : List Str) :
    (if us ≠ [] then ' ' :: joinSpace us else []) =
      (us.map (fun u => ' ' :: u)).flatten := by
  cases us with
  | nil => simp
  | cons u us => simp [joinSpace]

/-! ## Toolkit: character classes of emitted text -/

theorem plainChar_of_ne {c : Char} (h1 : c ≠ ' ') (h2 : c ≠ '\t') (h3 : c ≠ '\r')
    (h4 : c ≠ '\n') (h5 : c ≠ '"') (h6 : c ≠ '#') : plainChar c = true := by
  simp [plainChar, isShlexWS, h1, h2, h3, h4, h5, h6]

theorem hexChar_plain {c : Char} (h : isHexChar c = true) : plainChar c = true := by
  refine plainChar_of_ne ?_ ?_ ?_ ?_ ?_ ?_ <;> rintro rfl <;> exact absurd h (by decide)

theorem digitChar_plain {c : Char} (h : isDigitChar c = true) : plainChar c = true := by
  apply hexChar_plain
  simp [isHexChar, h]

theorem pyIntToStr_chars (i : Int) : ∀ c ∈ pyIntToStr i,
    c = '-' ∨ isDigitChar c = true := by
  intro c hc
  unfold pyIntToStr at hc
  by_cases hneg : i < 0
  · rw [if_pos hneg] at hc
    rcases List.mem_cons.mp hc with h | h
    · exact Or.inl h
    · exact Or.inr (List.all_eq_true.mp (natDigits_all_digits _) c h)
  · rw [if_neg hneg] at hc
    exact Or.inr (List.all_eq_true.mp (natDigits_all_digits _) c hc)

theorem pyIntToStr_all_plain (i : Int) : (pyIntToStr i).all plainChar = true := by
  rw [List.all_eq_true]
  intro c hc
  rcases pyIntToStr_chars i c hc with h | h
  · rw [h]; decide
  · exact digitChar_plain h

theorem pyIntToStr_ne_nil (i : Int) : pyIntToStr i ≠ [] := by
  unfold pyIntToStr
  by_cases hneg : i < 0
  · simp [hneg]
  · simp [hneg, natDigits_ne_nil]

theorem pyIntToStr_plainTok (i : Int) : plainTok (pyIntToStr i) = true := by
  have hall := pyIntToStr_all_plain i
  have hne := pyIntToStr_ne_nil i
  unfold plainTok
  rw [hall, Bool.and_true]
  cases hpi : pyIntToStr i with
  | nil => exact absurd hpi hne
  | cons c cs => rfl

theorem pyIntToStr_pair {i : Int} {c : Char} {t : Str}
    (h : pyIntToStr i = '0' :: c :: t) : isDigitChar c = true := by
  unfold pyIntToStr at h
  by_cases hneg : i < 0
  · rw [if_pos hneg] at h
    simp at h
  · rw [if_neg hneg] at h
    have hall := natDigits_all_digits i.toNat
    rw [h] at hall
    simp only [List.all_cons, Bool.and_eq_true] at hall
    exact hall.2.1

theorem isPrefixOf_pair {a b : Char} {s : Str}
    (h : List.isPrefixOf [a, b] s = true) : ∃ t, s = a :: b :: t := by
  match s with
  | [] => simp [List.isPrefixOf] at h
  | [x] => simp [List.isPrefixOf] at h
  | x :: y :: t =>
    simp only [List.isPrefixOf, Bool.and_eq_true, beq_iff_eq] at h
    exact ⟨t, by rw [h.1, h.2.1]⟩

theorem isPrefixOf_append_self (p l : Str) : List.isPrefixOf p (p ++ l) = true := by
  induction p with
  | nil => simp [List.isPrefixOf]
  | cons c p ih => simp [List.isPrefixOf, ih]

theorem not_prefix_0x_0q (l : Str) :
    List.isPrefixOf ['0', 'x'] ('0' :: 'q' :: l) = false := by
  by_contra hcon
  rw [Bool.not_eq_false] at hcon
  obtain ⟨t, ht⟩ := isPrefixOf_pair hcon
  simp at ht

theorem pyIntToStr_no_marker {i : Int} {x : Char} (hx : isDigitChar x = false) :
    List.isPrefixOf ['0', x] (pyIntToStr i) = false := by
  by_contra hcon
  rw [Bool.not_eq_false] at hcon
  obtain ⟨t, ht⟩ := isPrefixOf_pair hcon
  rw [pyIntToStr_pair ht] at hx
  exact absurd hx (by decide)

/-! ## Toolkit: `get_output` on well-formed messages -/

theorem value_to_output_wf (v : PyVal) (t : XBDMType) (h : wfValue v t = true) :
    value_to_output v t = some (outValue v t) := by
  cases v with
  | int i =>
    cases t with
    | DWORD =>
      unfold wfValue at h
      simp only [Bool.and_eq_true, decide_eq_true_eq] at h
      show (if i = 0 then some "0x0".data
        else if 0 ≤ i ∧ i < 2 ^ 32 then
          some ("0x".data ++ lstripZeros (hexDigits 8 i.toNat))
        else none) = some (outValue (PyVal.int i) XBDMType.DWORD)
      rw [show outValue (PyVal.int i) XBDMType.DWORD =
        (if i = 0 then "0x0".data
         else "0x".data ++ lstripZeros (hexDigits 8 i.toNat)) from rfl]
      by_cases h0 : i = 0
      · rw [if_pos h0, if_pos h0]
      · rw [if_neg h0, if_pos h, if_neg h0]
    | QWORD =>
      unfold wfValue at h
      simp only [Bool.and_eq_true, decide_eq_true_eq] at h
      show (if i = 0 then some "0q0".data
        else if 0 ≤ i ∧ i < 2 ^ 64 then
          some ("0q".data ++ lstripZeros (hexDigits 16 i.toNat))
        else none) = some (outValue (PyVal.int i) XBDMType.QWORD)
      rw [show outValue (PyVal.int i) XBDMType.QWORD =
        (if i = 0 then "0q0".data
         else "0q".data ++ lstripZeros (hexDigits 16 i.toNat)) from rfl]
      by_cases h0 : i = 0
      · rw [if_pos h0, if_pos h0]
      · rw [if_neg h0, if_pos h, if_neg h0]
    | INTEGER => rfl
    | NONE => simp [wfValue] at h
    | BYTES => simp [wfValue] at h
    | STRING => simp [wfValue] at h
    | QUOTED_STRING => simp [wfValue] at h
  | str s =>
    cases t with
    | QUOTED_STRING => rfl
    | STRING => rfl
    | NONE => simp [wfValue] at h
    | BYTES => simp [wfValue] at h
    | INTEGER => simp [wfValue] at h
    | DWORD => simp [wfValue] at h
    | QWORD => simp [wfValue] at h

theorem units_mapM (args : List (Str × PyVal × XBDMType))
    (h : ∀ e ∈ args, wfArg e = true) :
    args.mapM (fun e => do
      let w ← value_to_output e.2.1 e.2.2
      pure (e.1 ++ '=' :: w)) = some (args.map unitStr) := by
  induction args with
  | nil => rfl
  | cons e es ih =>
    rw [List.mapM_cons]
    have he := h e (List.mem_cons_self _ _)
    unfold wfArg at he
    simp only [Bool.and_eq_true] at he
    rw [value_to_output_wf _ _ he.2]
    rw [ih (fun x hx => h x (List.mem_cons_of_mem _ hx))]
    rfl

theorem ifs_flatten (us vs : List Str) :
    (if us ≠ [] then ' ' :: joinSpace us else []) ++
      (if vs ≠ [] then ' ' :: joinSpace vs else []) =
      ((us ++ vs).map (fun u => ' ' :: u)).flatten := by
  rw [spaceJoin, spaceJoin, List.map_append, List.flatten_append]

theorem wfHead_ml (m : CommonCmd) (h : wfHead m = true) :
    (decide (m.name = none) && decide (m.code = 0)) = false := by
  unfold wfHead at h
  cases hn : m.name with
  | some n =>
    simp [hn]
  | none =>
    rw [hn] at h
    simp only [decide_eq_true_eq] at h
    simp [hn]
    omega

theorem get_output_wf (m : CommonCmd) (h : wfMsg m) :
    get_output m = some (headTok m ++
      ((m.args.map unitStr ++ m.flags).map (fun u => ' ' :: u)).flatten ++
      "\r\n".data) := by
  obtain ⟨hhead, harg, hnodup, hflag, hfnodup⟩ := h
  unfold get_output
  rw [units_mapM m.args harg]
  show some _ = _
  rw [wfHead_ml m hhead]
  rw [← ifs_flatten]
  simp only [Bool.false_eq_true, if_false, List.singleton_append, headTok,
    List.map_eq_nil_iff, List.append_assoc]
  by_cases ha : m.args = [] <;> simp [ha]

/-! ## Toolkit: re-inference of types from emitted value text -/

theorem contains_eq_false_of_not_mem {s : Str} {c : Char} (h : c ∉ s) :
    s.contains c = false := by
  induction s with
  | nil => rfl
  | cons x xs ih =>
    simp only [List.mem_cons, not_or] at h
    simp only [List.contains_cons, Bool.or_eq_false_iff, beq_eq_false_iff_ne, ne_eq]
    exact ⟨h.1, ih h.2⟩

theorem isPrefixOf_singleton {a : Char} {s : Str}
    (h : List.isPrefixOf [a] s = true) : ∃ t, s = a :: t := by
  match s with
  | [] => simp [List.isPrefixOf] at h
  | x :: t =>
    simp only [List.isPrefixOf, Bool.and_eq_true, beq_iff_eq] at h
    exact ⟨t, by rw [h.1]⟩

theorem not_prefix_singleton {a : Char} {s : Str} (h : a ∉ s) :
    List.isPrefixOf [a] s = false := by
  by_contra hcon
  rw [Bool.not_eq_false] at hcon
  obtain ⟨t, rfl⟩ := isPrefixOf_singleton hcon
  exact h (List.mem_cons_self _ _)

theorem plain_not_mem {s : Str} (hall : s.all plainChar = true) {c : Char}
    (hc : plainChar c = false) : c ∉ s := by
  intro hmem
  have := List.all_eq_true.mp hall c hmem
  rw [hc] at this
  exact absurd this (by decide)

theorem pyIntToStr_not_mem (i : Int) {a : Char} (ha1 : a ≠ '-')
    (ha2 : isDigitChar a = false) : a ∉ pyIntToStr i := by
  intro hmem
  rcases pyIntToStr_chars i a hmem with h | h
  · exact ha1 h
  · rw [h] at ha2
    exact absurd ha2 (by decide)

theorem value_to_type_int (i : Int) : value_to_type (pyIntToStr i) = .INTEGER := by
  unfold value_to_type
  rw [show "0x".data = ['0', 'x'] from rfl, show "0q".data = ['0', 'q'] from rfl]
  rw [pyIntToStr_no_marker (by decide), pyIntToStr_no_marker (by decide)]
  rw [contains_eq_false_of_not_mem (pyIntToStr_not_mem i (by decide) (by decide))]
  rw [show "\"".data = ['"'] from rfl, show "'".data = ['\''] from rfl]
  rw [not_prefix_singleton (pyIntToStr_not_mem i (by decide) (by decide)),
    not_prefix_singleton (pyIntToStr_not_mem i (by decide) (by decide))]
  rw [pyInt?_pyIntToStr]
  simp

theorem value_apply_int (i : Int) :
    value_apply_type (pyIntToStr i) .INTEGER = some (.int i) := by
  unfold value_apply_type
  rw [pyInt?_pyIntToStr]
  rfl

theorem rawValue_dword (i : Int) : rawValue (.int i) .DWORD =
    if i = 0 then "0x0".data
    else "0x".data ++ lstripZeros (hexDigits 8 i.toNat) := rfl

theorem rawValue_qword (i : Int) : rawValue (.int i) .QWORD =
    if i = 0 then "0q0".data
    else "0q".data ++ lstripZeros (hexDigits 16 i.toNat) := rfl

theorem value_apply_dword (v : Str) : value_apply_type v .DWORD =
    if "0x".data.isPrefixOf v then
      (pyFromhexInt? (pyRjust (v.drop 2) 8 '0')).bind (fun n => some (.int n))
    else (pyInt? v).map .int := by
  cases hp : "0x".data.isPrefixOf v <;> simp [value_apply_type, hp]

theorem value_apply_qword (v : Str) : value_apply_type v .QWORD =
    if "0x".data.isPrefixOf v || "0q".data.isPrefixOf v then
      (pyFromhexInt? (pyRjust (v.drop 2) 16 '0')).bind (fun n => some (.int n))
    else (pyInt? v).map .int := by
  cases hp : "0x".data.isPrefixOf v <;> cases hq : "0q".data.isPrefixOf v <;>
    simp [value_apply_type, hp, hq]

set_option maxHeartbeats 1000000 in
theorem argRoundtrip (v : PyVal) (t : XBDMType) (h : wfValue v t = true) :
    value_to_type (rawValue v t) = canonType t ∧
    value_apply_type (rawValue v t) (canonType t) = some v := by
  cases v with
  | int i =>
    cases t with
    | DWORD =>
      unfold wfValue at h
      simp only [Bool.and_eq_true, decide_eq_true_eq] at h
      rw [show canonType XBDMType.DWORD = XBDMType.DWORD from rfl, rawValue_dword]
      by_cases h0 : i = 0
      · rw [if_pos h0, h0]
        exact ⟨by decide, by decide⟩
      · rw [if_neg h0]
        have h16 : i.toNat < 16 ^ 8 := by
          have hp : (16 : Nat) ^ 8 = 2 ^ 32 := by norm_num
          rw [hp]
          omega
        refine ⟨?_, ?_⟩
        · unfold value_to_type
          rw [isPrefixOf_append_self]
          simp
        · rw [value_apply_dword, isPrefixOf_append_self]
          simp only [if_true]
          rw [show ∀ l : Str, ("0x".data ++ l).drop 2 = l from fun l => rfl]
          rw [hexStripRoundtrip h16 (by decide)]
          simp only [Option.some_bind]
          rw [Int.toNat_of_nonneg h.1]
    | QWORD =>
      unfold wfValue at h
      simp only [Bool.and_eq_true, decide_eq_true_eq] at h
      rw [show canonType XBDMType.QWORD = XBDMType.QWORD from rfl, rawValue_qword]
      by_cases h0 : i = 0
      · rw [if_pos h0, h0]
        exact ⟨by decide, by decide⟩
      · rw [if_neg h0]
        have h16 : i.toNat < 16 ^ 16 := by
          have hp : (16 : Nat) ^ 16 = 2 ^ 64 := by norm_num
          rw [hp]
          omega
        have hnot0x : List.isPrefixOf "0x".data
            ("0q".data ++ lstripZeros (hexDigits 16 i.toNat)) = false :=
          not_prefix_0x_0q _
        refine ⟨?_, ?_⟩
        · unfold value_to_type
          rw [hnot0x, isPrefixOf_append_self]
          simp
        · rw [value_apply_qword, hnot0x, isPrefixOf_append_self]
          simp only [Bool.false_eq_true, false_or, Bool.or_true, if_true]
          rw [show ∀ l : Str, ("0q".data ++ l).drop 2 = l from fun l => rfl]
          rw [hexStripRoundtrip h16 (by decide)]
          simp only [Option.some_bind]
          rw [Int.toNat_of_nonneg h.1]
    | INTEGER => exact ⟨value_to_type_int i, value_apply_int i⟩
    | NONE => simp [wfValue] at h
    | BYTES => simp [wfValue] at h
    | STRING => simp [wfValue] at h
    | QUOTED_STRING => simp [wfValue] at h
  | str s =>
    cases t with
    | QUOTED_STRING =>
      unfold wfValue at h
      simp only [Bool.and_eq_true, Bool.not_eq_true', Bool.or_eq_true] at h
      obtain ⟨⟨⟨⟨hq, h0x⟩, h0q⟩, hdisj⟩, -⟩ := h
      refine ⟨?_, rfl⟩
      unfold value_to_type
      rw [show rawValue (.str s) .QUOTED_STRING = s from rfl]
      rw [h0x, h0q]
      simp only [Bool.false_eq_true, if_false]
      by_cases hb : (s.contains ' ' || "\"".data.isPrefixOf s ||
          "'".data.isPrefixOf s) = true
      · rw [hb]
        rfl
      · rw [Bool.not_eq_true] at hb
        rw [hb]
        simp only [Bool.or_eq_false_iff] at hb
        have hsp : s.contains ' ' = false := hb.1.1
        have hspre : "'".data.isPrefixOf s = false := hb.2
        have hnone : (pyInt? s).isNone = true := by
          rw [hsp, hspre] at hdisj
          simpa using hdisj
        rw [Option.isNone_iff_eq_none] at hnone
        rw [hnone]
        rfl
    | STRING =>
      unfold wfValue at h
      simp only [Bool.and_eq_true, Bool.not_eq_true'] at h
      obtain ⟨⟨⟨⟨⟨hp, h0x⟩, h0q⟩, hq⟩, hnone⟩, -⟩ := h
      refine ⟨?_, rfl⟩
      unfold value_to_type
      rw [show rawValue (.str s) .STRING = s from rfl]
      rw [h0x, h0q]
      have hall : s.all plainChar = true := by
        unfold plainTok at hp
        simp only [Bool.and_eq_true] at hp
        exact hp.2
      rw [contains_eq_false_of_not_mem (plain_not_mem hall (by decide))]
      rw [show "\"".data = ['"'] from rfl]
      rw [not_prefix_singleton (plain_not_mem hall (by decide))]
      rw [hq]
      rw [Option.isNone_iff_eq_none] at hnone
      rw [hnone]
      rfl
    | NONE => simp [wfValue] at h
    | BYTES => simp [wfValue] at h
    | INTEGER => simp [wfValue] at h
    | DWORD => simp [wfValue] at h
    | QWORD => simp [wfValue] at h

/-! ## Toolkit: reconstruction of the message by the `parse` token loop -/

theorem contains_eq_true_of_mem {s : Str} {c : Char} (h : c ∈ s) :
    s.contains c = true := by
  induction s with
  | nil => exact absurd h (List.not_mem_nil c)
  | cons x xs ih =>
    simp only [List.contains_cons, Bool.or_eq_true, beq_iff_eq]
    rcases List.mem_cons.mp h with h1 | h1
    · exact Or.inl h1
    · exact Or.inr (ih h1)

theorem splitFirstEq_unit (k r : Str) (hk : k.contains '=' = false) :
    splitFirstEq (k ++ '=' :: r) = (k, r) := by
  induction k with
  | nil => simp [splitFirstEq]
  | cons c k ih =>
    simp only [List.contains_cons, Bool.or_eq_false_iff] at hk
    have hne : ¬c = '=' := by
      intro hc
      rw [hc] at hk
      simp at hk
    have ihk := ih hk.2
    simp only [splitFirstEq, Prod.mk.injEq, decide_not] at ihk
    simp only [splitFirstEq, List.cons_append, List.takeWhile_cons,
      List.dropWhile_cons, hne, Prod.mk.injEq, decide_not]
    exact ⟨by simp [ihk.1], by simp [ihk.2]⟩

theorem assocSet_append (args : List (Str × PyVal × XBDMType)) (k : Str)
    (v : PyVal) (t : XBDMType) (h : args.any (fun e => e.1 = k) = false) :
    assocSet args k v t = args ++ [(k, v, t)] := by
  unfold assocSet
  rw [h]
  simp

theorem parseArgTokens_append (xs ys : List Str) (m : CommonCmd) :
    parseArgTokens m (xs ++ ys) =
      (parseArgTokens m xs).bind fun m1 => parseArgTokens m1 ys := by
  induction xs generalizing m with
  | nil => simp [parseArgTokens]
  | cons tok ts ih =>
    by_cases hc : tok.contains '=' = true
    · simp only [List.cons_append, parseArgTokens, hc, if_true]
      cases value_apply_type (splitFirstEq tok).2 (value_to_type (splitFirstEq tok).2) with
      | none => simp
      | some pv => simp [ih]
    · rw [Bool.not_eq_true] at hc
      simp only [List.cons_append, parseArgTokens, hc, Bool.false_eq_true, if_false]
      exact ih _

theorem lstripZeros_mem {s : Str} {c : Char} (h : c ∈ lstripZeros s) : c ∈ s := by
  rw [← lstripZeros_reconstruct s]
  exact List.mem_append_right _ h

theorem rawValue_all_plain (v : PyVal) (t : XBDMType) (h : wfValue v t = true)
    (hnq : t ≠ .QUOTED_STRING) : (rawValue v t).all plainChar = true := by
  cases v with
  | int i =>
    cases t with
    | DWORD =>
      rw [rawValue_dword]
      by_cases h0 : i = 0
      · rw [if_pos h0]
        decide
      · rw [if_neg h0, List.all_append]
        refine Bool.and_eq_true_iff.mpr ⟨by decide, ?_⟩
        rw [List.all_eq_true]
        intro c hc
        have hmem : c ∈ hexDigits 8 i.toNat := lstripZeros_mem hc
        exact hexChar_plain (List.all_eq_true.mp (hexDigits_all_hex 8 i.toNat) c hmem)
    | QWORD =>
      rw [rawValue_qword]
      by_cases h0 : i = 0
      · rw [if_pos h0]
        decide
      · rw [if_neg h0, List.all_append]
        refine Bool.and_eq_true_iff.mpr ⟨by decide, ?_⟩
        rw [List.all_eq_true]
        intro c hc
        have hmem : c ∈ hexDigits 16 i.toNat := lstripZeros_mem hc
        exact hexChar_plain (List.all_eq_true.mp (hexDigits_all_hex 16 i.toNat) c hmem)
    | INTEGER => exact pyIntToStr_all_plain i
    | NONE => simp [wfValue] at h
    | BYTES => simp [wfValue] at h
    | STRING => simp [wfValue] at h
    | QUOTED_STRING => exact absurd rfl hnq
  | str s =>
    cases t with
    | STRING =>
      unfold wfValue at h
      simp only [Bool.and_eq_true] at h
      have hp := h.1.1.1.1.1
      unfold plainTok at hp
      simp only [Bool.and_eq_true] at hp
      exact hp.2
    | QUOTED_STRING => exact absurd rfl hnq
    | NONE => simp [wfValue] at h
    | BYTES => simp [wfValue] at h
    | INTEGER => simp [wfValue] at h
    | DWORD => simp [wfValue] at h
    | QWORD => simp [wfValue] at h

theorem emitU_arg (e : Str × PyVal × XBDMType) (h : wfArg e = true) :
    EmitU (unitStr e) (argTok e) := by
  obtain ⟨k, v, t⟩ := e
  unfold wfArg at h
  simp only [Bool.and_eq_true] at h
  obtain ⟨⟨hk, _⟩, hv⟩ := h
  by_cases hq : t = XBDMType.QUOTED_STRING
  · subst hq
    cases v with
    | int i => simp [wfValue] at hv
    | str s =>
      have hcq : s.contains '"' = false := by
        unfold wfValue at hv
        simp only [Bool.and_eq_true, Bool.not_eq_true'] at hv
        exact hv.1.1.1.1
      have hshape : unitStr (k, .str s, XBDMType.QUOTED_STRING) =
          k ++ '=' :: ('"' :: s ++ ['"']) := rfl
      have hshape2 : argTok (k, .str s, XBDMType.QUOTED_STRING) =
          k ++ '=' :: s := rfl
      rw [hshape, hshape2]
      have hassoc : k ++ '=' :: ('"' :: s ++ ['"']) =
          k ++ '=' :: '"' :: s ++ ['"'] := by simp
      rw [hassoc]
      exact emitU_quoted k s hk hcq
  · have hout : outValue v t = rawValue v t := by
      unfold outValue
      cases t with
      | QUOTED_STRING => exact absurd rfl hq
      | NONE => rfl
      | INTEGER => rfl
      | DWORD => rfl
      | QWORD => rfl
      | BYTES => rfl
      | STRING => rfl
    have hplain : plainTok (unitStr (k, v, t)) = true := by
      unfold plainTok unitStr
      rw [hout]
      have hall : (k ++ '=' :: rawValue v t).all plainChar = true := by
        rw [List.all_append]
        refine Bool.and_eq_true_iff.mpr ⟨?_, ?_⟩
        · unfold plainTok at hk
          simp only [Bool.and_eq_true] at hk
          exact hk.2
        · rw [List.all_cons]
          refine Bool.and_eq_true_iff.mpr ⟨by decide, rawValue_all_plain v t hv hq⟩
      rw [hall, Bool.and_true]
      cases hu : k ++ '=' :: rawValue v t with
      | nil => exact absurd hu (by simp)
      | cons c cs => rfl
    have htok : argTok (k, v, t) = unitStr (k, v, t) := by
      unfold argTok unitStr
      rw [hout]
    rw [htok]
    exact emitU_plain _ hplain

theorem headTok_plain (m : CommonCmd) (h : wfHead m = true) :
    plainTok (headTok m) = true := by
  unfold wfHead at h
  unfold headTok
  cases hn : m.name with
  | some n =>
    rw [hn] at h
    simp only [Bool.and_eq_true, decide_eq_true_eq] at h
    rw [if_neg (by simp [h.2])]
    simp only [Option.getD_some]
    have hv := h.1
    unfold wfVerb at hv
    simp only [Bool.and_eq_true] at hv
    exact hv.1.1
  | none =>
    rw [hn] at h
    simp only [decide_eq_true_eq] at h
    rw [if_pos (by omega)]
    have hall : (pyIntToStr m.code ++ ['-']).all plainChar = true := by
      rw [List.all_append]
      refine Bool.and_eq_true_iff.mpr ⟨pyIntToStr_all_plain m.code, by decide⟩
    unfold plainTok
    rw [hall, Bool.and_true]
    cases hpp : pyIntToStr m.code ++ ['-'] with
    | nil => exact absurd hpp (by simp)
    | cons c cs => rfl

theorem parseArgs_args (es : List (Str × PyVal × XBDMType)) :
    ∀ (m : CommonCmd), (∀ e ∈ es, wfArg e = true) →
    (∀ e ∈ es, m.args.any (fun a => a.1 = e.1) = false) →
    (es.map (fun e => e.1)).Nodup →
    parseArgTokens m (es.map argTok) =
      some { m with
        args := m.args ++ es.map (fun e => (e.1, e.2.1, canonType e.2.2)) } := by
  induction es with
  | nil =>
    intro m _ _ _
    simp [parseArgTokens]
  | cons e es ih =>
    intro m hwf hfresh hnodup
    have he := hwf e (List.mem_cons_self _ _)
    have hwfv : wfValue e.2.1 e.2.2 = true := by
      unfold wfArg at he
      simp only [Bool.and_eq_true] at he
      exact he.2
    have hkeq : (e.1).contains '=' = false := by
      unfold wfArg at he
      simp only [Bool.and_eq_true, Bool.not_eq_true'] at he
      exact he.1.2
    simp only [List.map_cons, parseArgTokens]
    rw [if_pos (contains_eq_true_of_mem (show '=' ∈ argTok e from
      List.mem_append_right _ (List.mem_cons_self _ _)))]
    rw [show splitFirstEq (argTok e) = (e.1, rawValue e.2.1 e.2.2) from
      splitFirstEq_unit _ _ hkeq]
    obtain ⟨hvt, hva⟩ := argRoundtrip e.2.1 e.2.2 hwfv
    dsimp only
    rw [hvt, hva, Option.some_bind]
    rw [show set_param m e.1 e.2.1 (canonType e.2.2) =
        { m with args := m.args ++ [(e.1, e.2.1, canonType e.2.2)] } from by
      unfold set_param
      rw [assocSet_append _ _ _ _ (hfresh e (List.mem_cons_self _ _))]]
    have hfresh2 : ∀ x ∈ es,
        ({ m with args := m.args ++ [(e.1, e.2.1, canonType e.2.2)] } :
          CommonCmd).args.any (fun a => a.1 = x.1) = false := by
      intro x hx
      have h1 := hfresh x (List.mem_cons_of_mem _ hx)
      have hkey : ¬e.1 = x.1 := by
        intro hxk
        have hmemk : e.1 ∈ es.map (fun e => e.1) :=
          List.mem_map.mpr ⟨x, hx, hxk.symm⟩
        exact (List.nodup_cons.mp hnodup).1 hmemk
      simp [List.any_append, h1, hkey]
    have hih := ih { m with args := m.args ++ [(e.1, e.2.1, canonType e.2.2)] }
      (fun x hx => hwf x (List.mem_cons_of_mem _ hx)) hfresh2
      (List.nodup_cons.mp hnodup).2
    rw [hih]
    simp

theorem parseArgTokens_flags (fs : List Str) :
    ∀ (m : CommonCmd), (∀ f ∈ fs, wfFlag f = true) →
    (∀ f ∈ fs, f ∉ m.flags) → fs.Nodup →
    parseArgTokens m fs = some { m with flags := m.flags ++ fs } := by
  induction fs with
  | nil =>
    intro m _ _ _
    simp [parseArgTokens]
  | cons f fs ih =>
    intro m hwf hfresh hnodup
    have hf := hwf f (List.mem_cons_self _ _)
    unfold wfFlag at hf
    simp only [Bool.and_eq_true, Bool.not_eq_true'] at hf
    simp only [parseArgTokens]
    rw [hf.2]
    simp only [Bool.false_eq_true, if_false]
    rw [show set_flag m f = { m with flags := m.flags ++ [f] } from by
      unfold set_flag
      rw [if_neg (hfresh f (List.mem_cons_self _ _))]]
    have hfresh2 : ∀ x ∈ fs,
        x ∉ ({ m with flags := m.flags ++ [f] } : CommonCmd).flags := by
      intro x hx
      have h1 := hfresh x (List.mem_cons_of_mem _ hx)
      have hxf : ¬x = f := by
        intro hxk
        subst hxk
        exact (List.nodup_cons.mp hnodup).1 hx
      simp [h1, hxf]
    have hih := ih { m with flags := m.flags ++ [f] }
      (fun x hx => hwf x (List.mem_cons_of_mem _ hx)) hfresh2
      (List.nodup_cons.mp hnodup).2
    rw [hih]
    simp

